import Mathlib

/-!
Verification of the ritcher live-video ad-stitching proxy.

This file gives a shallow embedding, in Lean 4, of the parts of the
ritcher code base that the checked claims are about, and proves (or
refutes) each claim against that embedding.  Every definition is
translated from the Rust source; rationals stand for the `f32`/`f64`
values (exact where the source only casts or compares them), `Nat`
stands for the unsigned machine integers with saturation or overflow
made explicit where it matters, and `List Char` stands for Rust string
slices where byte-level positions matter.
-/

namespace Ritcher

/-- Rust `str::starts_with`, computed on the character list of the string
(reduces inside the kernel, unlike `String.startsWith`). -/
def strStartsWith (s p : String) : Bool :=
  p.toList.isPrefixOf s.toList

/-- Splitting a character list on a separator character, keeping empty
pieces, exactly as Rust `str::split(c)` does ( `"".split(c)` yields one
empty piece). -/
def splitOnChar (c : Char) : List Char → List (List Char)
  | [] => [[]]
  | x :: rest =>
    match splitOnChar c rest with
    | [] => [[x]]
    | p :: ps => if x = c then [] :: p :: ps else (x :: p) :: ps

/-! ### URL guard (src/server/url_validation.rs)

The `url` crate parses an origin URL into a scheme and a host; the host
is either an IPv4 literal (four octets), an IPv6 literal (eight 16-bit
segments), or a domain name.  `ParsedUrl` embeds exactly the data
`validate_origin_url` inspects after `Url::parse` succeeds. -/

/-- Host part of a parsed URL, as produced by the `url` crate's `Host`. -/
inductive UrlHost where
  | ipv4 (a b c d : Nat)
  | ipv6 (s0 s1 s2 s3 s4 s5 s6 s7 : Nat)
  | domain (name : String)
deriving DecidableEq

/-- The fields of a successfully parsed URL that `validate_origin_url`
inspects: the scheme and the optional host. -/
structure ParsedUrl where
  scheme : String
  host : Option UrlHost
deriving DecidableEq

/-- Embeds `is_blocked_ipv4` (src/server/url_validation.rs:69): blocked
when the leading octets match one of the private/reserved ranges.  The
last two octets are taken for fidelity to the Rust signature but are
not inspected, exactly as in the source. -/
def is_blocked_ipv4 (a b _c _d : Nat) : Bool :=
  decide (a = 0) || decide (a = 10) || decide (a = 127) ||
    (decide (a = 169) && decide (b = 254)) ||
    (decide (a = 172) && (decide (16 ≤ b) && decide (b ≤ 31))) ||
    (decide (a = 192) && decide (b = 168))

/-- Embeds `is_blocked_ipv6` (src/server/url_validation.rs:87):
loopback, or `s[0] & 0xffc0 == 0xfe80`, or `s[0] & 0xfe00 == 0xfc00`.
`Ipv6Addr::is_loopback` holds exactly when all segments are zero except
the last, which is 1. -/
def is_blocked_ipv6 (s0 s1 s2 s3 s4 s5 s6 s7 : Nat) : Bool :=
  decide (s0 = 0 ∧ s1 = 0 ∧ s2 = 0 ∧ s3 = 0 ∧ s4 = 0 ∧ s5 = 0 ∧ s6 = 0 ∧ s7 = 1) ||
    decide (s0 &&& 65472 = 65152) ||
    decide (s0 &&& 65024 = 64512)

/-- Embeds `validate_origin_url` (src/server/url_validation.rs:19) on an
already-parsed URL; `true` stands for `Ok(())` and `false` for
`Err(InvalidOrigin)`.  The scheme must be http or https, a host must be
present, IP literals must not be blocked, and domains pass without DNS
resolution. -/
def validate_origin_url (u : ParsedUrl) : Bool :=
  if u.scheme = "http" ∨ u.scheme = "https" then
    match u.host with
    | none => false
    | some (UrlHost.ipv4 a b c d) => !is_blocked_ipv4 a b c d
    | some (UrlHost.ipv6 s0 s1 s2 s3 s4 s5 s6 s7) =>
        !is_blocked_ipv6 s0 s1 s2 s3 s4 s5 s6 s7
    | some (UrlHost.domain _) => true
  else false

/-- Spec-side view of a host's blocked status, used to state the guard's
accept/reject characterization. -/
def host_blocked : UrlHost → Bool
  | UrlHost.ipv4 a b c d => is_blocked_ipv4 a b c d
  | UrlHost.ipv6 s0 s1 s2 s3 s4 s5 s6 s7 => is_blocked_ipv6 s0 s1 s2 s3 s4 s5 s6 s7
  | UrlHost.domain _ => false

/-- Numeric value of a dotted-quad IPv4 address. -/
def ipv4Val (a b c d : Nat) : Nat :=
  ((a * 256 + b) * 256 + c) * 256 + d

/-- CIDR-range membership for an IPv4 address, stated numerically: the
address lies in the block of `2 ^ (32 - maskBits)` addresses starting at
`base`. -/
def inCidr4 (a b c d base maskBits : Nat) : Prop :=
  base ≤ ipv4Val a b c d ∧ ipv4Val a b c d < base + 2 ^ (32 - maskBits)

/-- The six blocked IPv4 ranges named by the spec, as CIDR blocks:
0.0.0.0/8, 10.0.0.0/8, 127.0.0.0/8, 169.254.0.0/16, 172.16.0.0/12,
192.168.0.0/16. -/
def ipv4BlockedSpec (a b c d : Nat) : Prop :=
  inCidr4 a b c d 0 8 ∨ inCidr4 a b c d 167772160 8 ∨ inCidr4 a b c d 2130706432 8 ∨
    inCidr4 a b c d 2851995648 16 ∨ inCidr4 a b c d 2886729728 12 ∨
    inCidr4 a b c d 3232235520 16

/-- The three blocked IPv6 ranges named by the spec: ::1/128 (loopback),
fe80::/10 (link-local, first segment in [0xfe80, 0xfec0)), fc00::/7
(unique-local, first segment in [0xfc00, 0xfe00)). -/
def ipv6BlockedSpec (s0 s1 s2 s3 s4 s5 s6 s7 : Nat) : Prop :=
  (s0 = 0 ∧ s1 = 0 ∧ s2 = 0 ∧ s3 = 0 ∧ s4 = 0 ∧ s5 = 0 ∧ s6 = 0 ∧ s7 = 1) ∨
    (65152 ≤ s0 ∧ s0 < 65216) ∨ (64512 ≤ s0 ∧ s0 < 65024)

/-- Masking a 16-bit value with 0xffc0 clears its low six bits. -/
theorem land_65472_eq (x : Nat) (hx : x < 65536) : x &&& 65472 = x / 64 * 64 := by
  have h1 : (65472 : Nat) = 1023 <<< 6 := by norm_num [Nat.shiftLeft_eq]
  have h2 : x / 64 * 64 = (x >>> 6) <<< 6 := by
    rw [Nat.shiftRight_eq_div_pow, Nat.shiftLeft_eq]
  rw [h1, h2]
  apply Nat.eq_of_testBit_eq
  intro i
  rw [Nat.testBit_and, Nat.testBit_shiftLeft, Nat.testBit_shiftLeft, Nat.testBit_shiftRight]
  have h1023 : (1023 : Nat) = 2 ^ 10 - 1 := by norm_num
  rw [h1023, Nat.testBit_two_pow_sub_one]
  by_cases h6 : 6 ≤ i
  · have h66 : 6 + (i - 6) = i := by omega
    rw [h66]
    by_cases h16 : i < 16
    · have hi : i - 6 < 10 := by omega
      simp [h6, hi, Bool.and_comm]
    · have hxi : Nat.testBit x i = false := by
        apply Nat.testBit_lt_two_pow
        calc x < 65536 := hx
          _ = 2 ^ 16 := by norm_num
          _ ≤ 2 ^ i := Nat.pow_le_pow_right (by norm_num) (by omega)
      have hi : ¬ (i - 6 < 10) := by omega
      simp [hxi, hi]
  · simp [h6]

/-- Masking a 16-bit value with 0xfe00 clears its low nine bits. -/
theorem land_65024_eq (x : Nat) (hx : x < 65536) : x &&& 65024 = x / 512 * 512 := by
  have h1 : (65024 : Nat) = 127 <<< 9 := by norm_num [Nat.shiftLeft_eq]
  have h2 : x / 512 * 512 = (x >>> 9) <<< 9 := by
    rw [Nat.shiftRight_eq_div_pow, Nat.shiftLeft_eq]
  rw [h1, h2]
  apply Nat.eq_of_testBit_eq
  intro i
  rw [Nat.testBit_and, Nat.testBit_shiftLeft, Nat.testBit_shiftLeft, Nat.testBit_shiftRight]
  have h127 : (127 : Nat) = 2 ^ 7 - 1 := by norm_num
  rw [h127, Nat.testBit_two_pow_sub_one]
  by_cases h9 : 9 ≤ i
  · have h99 : 9 + (i - 9) = i := by omega
    rw [h99]
    by_cases h16 : i < 16
    · have hi : i - 9 < 7 := by omega
      simp [h9, hi, Bool.and_comm]
    · have hxi : Nat.testBit x i = false := by
        apply Nat.testBit_lt_two_pow
        calc x < 65536 := hx
          _ = 2 ^ 16 := by norm_num
          _ ≤ 2 ^ i := Nat.pow_le_pow_right (by norm_num) (by omega)
      have hi : ¬ (i - 9 < 7) := by omega
      simp [hxi, hi]
  · simp [h9]

/-- The code's IPv4 octet tests coincide with the spec's CIDR ranges on
genuine octets (each below 256). -/
theorem is_blocked_ipv4_iff_spec (a b c d : Nat)
    (ha : a < 256) (hb : b < 256) (hc : c < 256) (hd : d < 256) :
    is_blocked_ipv4 a b c d = true ↔ ipv4BlockedSpec a b c d := by
  simp only [is_blocked_ipv4, ipv4BlockedSpec, inCidr4, ipv4Val, Bool.or_eq_true,
    Bool.and_eq_true, decide_eq_true_eq]
  constructor
  · intro h
    rcases h with ((((h | h) | h) | ⟨h1, h2⟩) | ⟨h1, h2, h3⟩) | ⟨h1, h2⟩ <;> subst_vars <;> norm_num <;> omega
  · intro h
    rcases h with h | h | h | h | h | h <;> norm_num at h <;> omega

/-- The code's IPv6 segment tests coincide with the spec's three blocked
ranges on genuine 16-bit segments. -/
theorem is_blocked_ipv6_iff_spec (s0 s1 s2 s3 s4 s5 s6 s7 : Nat) (h0 : s0 < 65536) :
    is_blocked_ipv6 s0 s1 s2 s3 s4 s5 s6 s7 = true ↔ ipv6BlockedSpec s0 s1 s2 s3 s4 s5 s6 s7 := by
  simp only [is_blocked_ipv6, ipv6BlockedSpec, Bool.or_eq_true, decide_eq_true_eq,
    land_65472_eq s0 h0, land_65024_eq s0 h0]
  constructor
  · intro h
    rcases h with (h | h) | h
    · exact Or.inl h
    · refine Or.inr (Or.inl ?_)
      omega
    · refine Or.inr (Or.inr ?_)
      omega
  · intro h
    rcases h with h | h | h
    · exact Or.inl (Or.inl h)
    · refine Or.inl (Or.inr ?_)
      omega
    · refine Or.inr ?_
      omega

/-- C5: the URL guard accepts a parsed URL iff its scheme is http or https
and its host is present and not blocked; on genuine octets/segments the
blocked IPv4 hosts are exactly the six CIDR ranges of the spec and the
blocked IPv6 hosts exactly the three ranges; domain hostnames pass with an
allowed scheme and no DNS lookup; file, ftp and gopher schemes are always
rejected; http://8.8.8.8 and https://cdn.example.com are accepted. -/
theorem C5_url_guard_characterization :
    (∀ u : ParsedUrl, validate_origin_url u = true ↔
      ((u.scheme = "http" ∨ u.scheme = "https") ∧
        ∃ h, u.host = some h ∧ host_blocked h = false)) ∧
    (∀ a b c d : Nat, a < 256 → b < 256 → c < 256 → d < 256 →
      (validate_origin_url ⟨"http", some (UrlHost.ipv4 a b c d)⟩ = false ↔
        ipv4BlockedSpec a b c d)) ∧
    (∀ s0 s1 s2 s3 s4 s5 s6 s7 : Nat, s0 < 65536 →
      (validate_origin_url ⟨"http", some (UrlHost.ipv6 s0 s1 s2 s3 s4 s5 s6 s7)⟩ = false ↔
        ipv6BlockedSpec s0 s1 s2 s3 s4 s5 s6 s7)) ∧
    (∀ (name sch : String), (sch = "http" ∨ sch = "https") →
      validate_origin_url ⟨sch, some (UrlHost.domain name)⟩ = true) ∧
    (∀ u : ParsedUrl, (u.scheme = "file" ∨ u.scheme = "ftp" ∨ u.scheme = "gopher") →
      validate_origin_url u = false) ∧
    validate_origin_url ⟨"http", some (UrlHost.ipv4 8 8 8 8)⟩ = true ∧
    validate_origin_url ⟨"https", some (UrlHost.domain "cdn.example.com")⟩ = true := by
  refine ⟨?_, ?_, ?_, ?_, ?_, by decide, by decide⟩
  · intro u
    rcases u with ⟨s, h⟩
    by_cases hs : s = "http" ∨ s = "https"
    · cases h with
      | none => simp [validate_origin_url, hs]
      | some host =>
        cases host with
        | ipv4 a b c d => simp [validate_origin_url, hs, host_blocked]
        | ipv6 s0 s1 s2 s3 s4 s5 s6 s7 => simp [validate_origin_url, hs, host_blocked]
        | domain n => simp [validate_origin_url, hs, host_blocked]
    · simp [validate_origin_url, hs]
  · intro a b c d ha hb hc hd
    rw [← is_blocked_ipv4_iff_spec a b c d ha hb hc hd]
    simp [validate_origin_url]
  · intro s0 s1 s2 s3 s4 s5 s6 s7 h0
    rw [← is_blocked_ipv6_iff_spec s0 s1 s2 s3 s4 s5 s6 s7 h0]
    simp [validate_origin_url]
  · intro name sch hsch
    simp [validate_origin_url, hsch]
  · intro u hsch
    rcases u with ⟨s, h⟩
    rcases hsch with hs | hs | hs <;> subst hs <;> simp [validate_origin_url]

/-- Concrete instantiation of the URL-guard characterization: 10.0.0.1 and
the IPv6 link-local 0xfe81::1 are rejected. -/
theorem C5_url_guard_characterization_witness :
    validate_origin_url ⟨"http", some (UrlHost.ipv4 10 0 0 1)⟩ = false ∧
    validate_origin_url ⟨"http", some (UrlHost.ipv6 65153 0 0 0 0 0 0 1)⟩ = false := by
  constructor
  · exact (C5_url_guard_characterization.2.1 10 0 0 1 (by norm_num) (by norm_num)
      (by norm_num) (by norm_num)).mpr
      (by unfold ipv4BlockedSpec inCidr4 ipv4Val; decide)
  · exact (C5_url_guard_characterization.2.2.1 65153 0 0 0 0 0 0 1 (by norm_num)).mpr
      (by unfold ipv6BlockedSpec; decide)

/-! ### Playlist handler origin selection (src/server/handlers/playlist.rs)

`serve_playlist` reads the `origin` query parameter and, when present,
fetches it directly; the configured origin is used as fallback.  No call
to the URL guard appears in that handler (unlike `serve_segment`, which
validates a user-supplied origin before fetching). -/

/-- Lookup of a query parameter, as `params.get("origin")` on the parsed
query map. -/
def lookupParam (params : List (String × String)) (k : String) : Option String :=
  (params.find? (fun p => p.1 == k)).map (fun p => p.2)

/-- Embeds the origin selection of `serve_playlist`
(src/server/handlers/playlist.rs:19-27): the URL handed to the HTTP GET is
the raw `origin` query parameter when present, else the configured origin.
The handler applies no validation before the fetch. -/
def serve_playlist_fetch_url (params : List (String × String)) (config_origin : String) : String :=
  (lookupParam params "origin").getD config_origin

/-- C2: refuted by the code — `serve_playlist` hands a user-supplied
`?origin=` straight to the fetch: for `?origin=http://127.0.0.1/stream`
the fetched URL is exactly that private-loopback origin, although the URL
guard rejects it. -/
theorem C2_playlist_handler_skips_url_guard :
    serve_playlist_fetch_url [("origin", "http://127.0.0.1/stream")]
        "http://cdn.example.com/live/playlist.m3u8" = "http://127.0.0.1/stream" ∧
    validate_origin_url ⟨"http", some (UrlHost.ipv4 127 0 0 1)⟩ = false := by
  exact ⟨rfl, by decide⟩

/-! ### HLS playlist rewriter (src/hls/parser.rs)

`modify_playlist` walks the parsed media playlist's segments in order.
The embedding keeps the segment fields the loop reads or writes (`uri`,
`discontinuity`) plus the raw tag list in which SCTE-35 cue markers such
as `#EXT-X-CUE-OUT` would travel; the loop never consults that list. -/

/-- Media segment restricted to the fields relevant to `modify_playlist`
and to the ad-break claim. -/
structure MediaSegment where
  uri : String
  discontinuity : Bool
  unknown_tags : List String
deriving DecidableEq

/-- Last path component of a URI: embeds
`uri.split('/').next_back().unwrap_or(&uri)`. -/
def lastPathComponent (uri : String) : String :=
  (((splitOnChar '/' uri.toList).getLast?).map String.mk).getD uri

/-- Embeds the segment loop of `modify_playlist` (src/hls/parser.rs:30-55):
every segment at a positive index divisible by 10 is replaced by the fixed
ad-segment URI and given a discontinuity; all other segment URIs are
rewritten to the stitcher's segment proxy.  (Parsing and re-serialization
surround this loop in the source and preserve these fields.) -/
def modify_playlist (segments : List MediaSegment)
    (session_id base_url origin_url : String) : List MediaSegment :=
  segments.mapIdx fun index seg =>
    if 0 < index ∧ index % 10 = 0 then
      { seg with discontinuity := true,
                 uri := base_url ++ "/stitch/" ++ session_id ++ "/ad/ad-segment.ts" }
    else
      let segment_name := if strStartsWith seg.uri "http" then lastPathComponent seg.uri else seg.uri
      { seg with uri := base_url ++ "/stitch/" ++ session_id ++ "/segment/" ++ segment_name ++
          "?origin=" ++ origin_url }

/-- A segment carries a CUE-OUT ad-break marker. -/
def hasCueOut (seg : MediaSegment) : Bool :=
  seg.unknown_tags.any (fun t => strStartsWith t "#EXT-X-CUE-OUT")

/-- Eleven plain content segments, none carrying any cue marker. -/
def c1Input : List MediaSegment :=
  (List.range 11).map (fun i => ⟨"seg" ++ toString i ++ ".ts", false, []⟩)

/-- C1: refuted by the code — on a playlist of eleven segments with no
CUE-OUT marker anywhere, `modify_playlist` still replaces the segment at
index 10 with the ad-segment URI and sets a discontinuity there, inventing
an ad break that no marker signaled (the source's own TODO admits the
marker detection is missing). -/
theorem C1_modify_playlist_invents_break :
    c1Input.all (fun s => !hasCueOut s) = true ∧
    (modify_playlist c1Input "sess" "http://stitcher" "http://origin/live").get? 10 =
      some ⟨"http://stitcher/stitch/sess/ad/ad-segment.ts", true, []⟩ ∧
    (modify_playlist c1Input "sess" "http://stitcher" "http://origin/live").get? 9 =
      some ⟨"http://stitcher/stitch/sess/segment/seg9.ts?origin=http://origin/live", false, []⟩ := by
  refine ⟨by decide, by decide, by decide⟩

/-! ### Ad provider (src/ad/provider.rs)

The static provider is the variant the claims cite.  Ad names are
embedded as character lists because the parser works on exact positions
of `-` separators and an optional `.ts` suffix.  Durations (`f32`) are
embedded as rationals; the only float operations performed are division,
`ceil`, and the saturating `as usize` cast, which are made explicit. -/

/-- Tracking metadata attached to a VAST-sourced ad segment
(src/ad/provider.rs:18). -/
structure AdTrackingInfo where
  impression_urls : List String
  tracking_events : List (String × String)
  error_url : Option String
  total_segments : Nat
  segment_index : Nat
deriving DecidableEq

/-- A single fill-in ad segment (src/ad/provider.rs:7). -/
structure AdSegment where
  uri : String
  duration : ℚ
  tracking : Option AdTrackingInfo
deriving DecidableEq

/-- A resolved ad segment with optional tracking context
(src/ad/provider.rs:33). -/
structure ResolvedSegment where
  url : String
  tracking : Option AdTrackingInfo
deriving DecidableEq

/-- The static ad provider's configuration (src/ad/provider.rs:139). -/
structure StaticAdProvider where
  ad_source_url : String
  segment_duration : ℚ
  segment_count : Nat
deriving DecidableEq

/-- Decimal value of a digit string. -/
def digitsVal (s : List Char) : Nat :=
  s.foldl (fun a c => a * 10 + (c.toNat - 48)) 0

/-- Rust `str::parse::<usize>()` on a character list: an optional leading
plus sign, then one or more ASCII digits, with the value below `2 ^ 64`
(usize on a 64-bit target); anything else is a parse error. -/
def rustParseUsize (s : List Char) : Option Nat :=
  let t := if s.head? = some '+' then s.tail else s
  if !t.isEmpty && t.all Char.isDigit then
    if digitsVal t < 2 ^ 64 then some (digitsVal t) else none
  else none

/-- Rust `name.strip_suffix(".ts").unwrap_or(name)`. -/
def stripTsSuffix (name : List Char) : List Char :=
  if ['.', 't', 's'].isSuffixOf name then name.take (name.length - 3) else name

/-- Embeds `StaticAdProvider::parse_segment_index`
(src/ad/provider.rs:177): strip an optional `.ts` suffix, split on `-`,
require at least four parts with parts 0 and 2 equal to `break` and
`seg`, and parse part 3 as a usize.  Part 1 (the break index) is not
inspected and parts beyond the fourth are ignored. -/
def parse_segment_index (ad_name : List Char) : Option Nat :=
  let name := stripTsSuffix ad_name
  let parts := splitOnChar '-' name
  if 4 ≤ parts.length ∧ parts.get? 0 = some "break".toList ∧ parts.get? 2 = some "seg".toList then
    rustParseUsize ((parts.get? 3).getD [])
  else none

/-- Rust `format!("out_\x7b:03\x7d.ts", i)`: the decimal form of `i`
zero-padded to at least three characters, in the ad source's segment
naming scheme. -/
def formatOut3 (i : Nat) : String :=
  let ds := toString i
  let pad := String.mk (List.replicate (3 - ds.length) '0')
  "out_" ++ pad ++ ds ++ ".ts"

/-- Embeds `StaticAdProvider::resolve_segment_url`
(src/ad/provider.rs:222): parse the segment index, cycle it through the
available source segments, and build the origin URL. -/
def resolve_segment_url (p : StaticAdProvider) (ad_name : List Char)
    (_session_id : String) : Option String :=
  (parse_segment_index ad_name).map fun seg_index =>
    let source_index := seg_index % p.segment_count
    p.ad_source_url ++ "/" ++ formatOut3 source_index

/-- Embeds the `AdProvider::resolve_segment_with_tracking` default
implementation (src/ad/provider.rs:95): the resolved URL with no
tracking context. -/
def resolve_segment_with_tracking (p : StaticAdProvider) (ad_name : List Char)
    (session_id : String) : Option ResolvedSegment :=
  (resolve_segment_url p ad_name session_id).map fun url => ⟨url, none⟩

/-- Error kinds constructed by the handlers present in the snapshot; the
enum itself lives in src/error.rs, which the snapshot does not contain. -/
inductive RitcherErrorKind where
  | invalidOrigin
  | originFetchError
  | playlistParseError
  | playlistModifyError
  | internalError
  | rateLimited
  | notFound
deriving DecidableEq

/-- Modelled from the spec: the HTTP status for each error kind
(src/error.rs is missing from the snapshot).  Spec section 7 maps
InvalidOrigin to 400, upstream fetch and parse failures to 502, internal
inconsistencies to 500, RateLimited to 429 and NotFound to 404. -/
def error_status : RitcherErrorKind → Nat
  | .invalidOrigin => 400
  | .originFetchError => 502
  | .playlistParseError => 502
  | .playlistModifyError => 500
  | .internalError => 500
  | .rateLimited => 429
  | .notFound => 404

/-- Embeds the ad-resolution step of `serve_ad`
(src/server/handlers/ad.rs:32-40): a failed resolution becomes
`RitcherError::InternalError`; a successful one yields the resolved
segment.  The subsequent fetch and the beacon side effects are outside
the resolution claim. -/
def serve_ad_resolution (p : StaticAdProvider) (ad_name : List Char)
    (session_id : String) : Except RitcherErrorKind ResolvedSegment :=
  match resolve_segment_with_tracking p ad_name session_id with
  | some r => Except.ok r
  | none => Except.error RitcherErrorKind.internalError

/-- C3 counterexample: names deviating from `break-\x7bb\x7d-seg-\x7bs\x7d.ts`
still resolve — the `.ts` suffix is optional, trailing dash-separated
junk is ignored, and the break index need not be numeric; moreover a
name that does fail to resolve is answered with the internal-error kind
(status 500 under the spec's error taxonomy), not 404. -/
theorem C3_ad_name_counterexample :
    parse_segment_index "break-0-seg-3".toList = some 3 ∧
    parse_segment_index "break-0-seg-3-junk.ts".toList = some 3 ∧
    parse_segment_index "break-x-seg-3.ts".toList = some 3 ∧
    resolve_segment_url ⟨"http://ads", 1, 10⟩ "break-0-seg-3".toList "sess" =
      some "http://ads/out_003.ts" ∧
    serve_ad_resolution ⟨"http://ads", 1, 10⟩ "nope.ts".toList "sess" =
      Except.error RitcherErrorKind.internalError ∧
    error_status RitcherErrorKind.internalError = 500 := by
  exact ⟨rfl, rfl, rfl, rfl, rfl, rfl⟩

/-- Splitting never produces an empty list of pieces. -/
theorem splitOnChar_ne_nil (c : Char) (xs : List Char) : splitOnChar c xs ≠ [] := by
  cases xs with
  | nil => simp [splitOnChar]
  | cons x rest =>
    cases h : splitOnChar c rest with
    | nil => simp [splitOnChar, h]
    | cons p ps => by_cases hx : x = c <;> simp [splitOnChar, h, hx]

/-- Splitting a separator-free list yields that list as the only piece. -/
theorem splitOnChar_no_sep (c : Char) (xs : List Char) (h : ∀ x ∈ xs, x ≠ c) :
    splitOnChar c xs = [xs] := by
  induction xs with
  | nil => rfl
  | cons x rest ih =>
    have hx : x ≠ c := h x (by simp)
    have hr := ih (fun y hy => h y (by simp [hy]))
    simp [splitOnChar, hr, hx]

/-- Splitting peels off a separator-free first piece. -/
theorem splitOnChar_sep_append (c : Char) (xs ys : List Char) (h : ∀ x ∈ xs, x ≠ c) :
    splitOnChar c (xs ++ c :: ys) = xs :: splitOnChar c ys := by
  induction xs with
  | nil =>
    obtain ⟨p, ps, hps⟩ := List.exists_cons_of_ne_nil (splitOnChar_ne_nil c ys)
    simp [splitOnChar, hps]
  | cons x rest ih =>
    have hx : x ≠ c := h x (by simp)
    have hr := ih (fun y hy => h y (by simp [hy]))
    simp [splitOnChar, List.cons_append, hr, hx]

/-- The first piece of a split is either the whole list (no separator at
all) or, followed by the separator, a prefix of the list. -/
theorem splitOnChar_head_shape (c : Char) (xs : List Char) :
    ∀ p ps, splitOnChar c xs = p :: ps → (ps = [] ∧ xs = p) ∨ (p ++ [c]) <+: xs := by
  induction xs with
  | nil =>
    intro p ps hs
    simp [splitOnChar] at hs
    obtain ⟨h1, h2⟩ := hs
    subst_vars
    exact Or.inl ⟨rfl, rfl⟩
  | cons x rest ih =>
    intro p ps hs
    obtain ⟨q, qs, hq⟩ := List.exists_cons_of_ne_nil (splitOnChar_ne_nil c rest)
    by_cases hx : x = c
    · subst hx
      simp [splitOnChar, hq] at hs
      obtain ⟨h1, h2⟩ := hs
      subst_vars
      exact Or.inr ⟨rest, rfl⟩
    · simp [splitOnChar, hq, hx] at hs
      obtain ⟨h1, h2⟩ := hs
      subst_vars
      rcases ih q qs hq with ⟨hqs, hrest⟩ | hpre
      · subst hqs
        exact Or.inl ⟨rfl, by rw [hrest]⟩
      · refine Or.inr ?_
        obtain ⟨t, ht⟩ := hpre
        exact ⟨t, by simp [← ht]⟩

/-- A digit character is not a dash. -/
theorem digit_ne_dash (x : Char) (h : x.isDigit = true) : x ≠ '-' := by
  intro hx
  subst hx
  exact absurd h (by decide)

/-- A well-formed digit string below the usize bound parses to its value. -/
theorem rustParseUsize_digits (s : List Char) (hne : s ≠ [])
    (hd : s.all Char.isDigit = true) (hv : digitsVal s < 2 ^ 64) :
    rustParseUsize s = some (digitsVal s) := by
  cases s with
  | nil => exact absurd rfl hne
  | cons c r =>
    have hcd : c.isDigit = true := by
      simp [List.all_cons] at hd
      exact hd.1
    have hc : c ≠ '+' := by
      intro hceq
      subst hceq
      exact absurd hcd (by decide)
    have hd2 : (c :: r).all Char.isDigit = true := by simpa [List.all_cons, hcd] using hd
    simp only [rustParseUsize, List.head?_cons, List.tail_cons, Option.some.injEq]
    simp only [if_neg hc]
    rw [if_pos (by simp [List.isEmpty_cons, hd2]), if_pos hv]

/-- Unfolded form of `parse_segment_index`. -/
theorem parse_segment_index_eq (name : List Char) :
    parse_segment_index name =
      (if 4 ≤ (splitOnChar '-' (stripTsSuffix name)).length ∧
          (splitOnChar '-' (stripTsSuffix name)).get? 0 = some "break".toList ∧
          (splitOnChar '-' (stripTsSuffix name)).get? 2 = some "seg".toList then
        rustParseUsize (((splitOnChar '-' (stripTsSuffix name)).get? 3).getD [])
      else none) := rfl

/-- Splitting the well-formed ad-name body yields its four pieces. -/
theorem splitOnChar_ad_name (bd sd : List Char)
    (hbd : bd.all Char.isDigit = true) (hsd : sd.all Char.isDigit = true) :
    splitOnChar '-' ("break-".toList ++ bd ++ "-seg-".toList ++ sd) =
      ["break".toList, bd, "seg".toList, sd] := by
  have hb : ∀ x ∈ bd, x ≠ '-' := by
    intro x hx
    exact digit_ne_dash x (by simpa using (List.all_eq_true.mp hbd x hx))
  have hs : ∀ x ∈ sd, x ≠ '-' := by
    intro x hx
    exact digit_ne_dash x (by simpa using (List.all_eq_true.mp hsd x hx))
  have h1 : "break-".toList ++ bd ++ "-seg-".toList ++ sd =
      "break".toList ++ '-' :: (bd ++ '-' :: ("seg".toList ++ '-' :: sd)) := by
    simp
  rw [h1, splitOnChar_sep_append '-' _ _ (by decide),
    splitOnChar_sep_append '-' _ _ hb,
    splitOnChar_sep_append '-' _ _ (by decide),
    splitOnChar_no_sep '-' _ hs]

/-- C3 (amended): the static resolver accepts the lenient shape — after
optionally stripping one `.ts` suffix, the name must split on `-` into at
least four pieces with pieces 0 and 2 equal to `break` and `seg` and
piece 3 parsing as a usize.  Every exact-shape name (with or without the
`.ts` suffix) resolves to a URL; a name whose stripped form does not even
start with `break-` never resolves; and a failed resolution makes
`serve_ad` fail with the internal-error kind, mapped to status 500 by the
spec's taxonomy, not 404. -/
theorem C3_ad_resolver_amended :
    (∀ (p : StaticAdProvider) (sid : String) (bd sd : List Char),
      bd ≠ [] → bd.all Char.isDigit = true → sd ≠ [] → sd.all Char.isDigit = true →
      digitsVal sd < 2 ^ 64 →
      parse_segment_index ("break-".toList ++ bd ++ "-seg-".toList ++ sd ++ ".ts".toList) =
        some (digitsVal sd) ∧
      parse_segment_index ("break-".toList ++ bd ++ "-seg-".toList ++ sd) =
        some (digitsVal sd) ∧
      (resolve_segment_url p ("break-".toList ++ bd ++ "-seg-".toList ++ sd ++ ".ts".toList)
          sid).isSome = true) ∧
    (∀ name : List Char, ¬ ("break-".toList <+: stripTsSuffix name) →
      parse_segment_index name = none) ∧
    (∀ (p : StaticAdProvider) (sid : String) (name : List Char),
      parse_segment_index name = none →
      serve_ad_resolution p name sid = Except.error RitcherErrorKind.internalError) ∧
    error_status RitcherErrorKind.internalError = 500 := by
  refine ⟨?_, ?_, ?_, rfl⟩
  · intro p sid bd sd hbne hbd hsne hsd hv
    have hts : parse_segment_index
        ("break-".toList ++ bd ++ "-seg-".toList ++ sd ++ ".ts".toList) =
          some (digitsVal sd) := by
      have hsuff : stripTsSuffix ("break-".toList ++ bd ++ "-seg-".toList ++ sd ++ ".ts".toList) =
          "break-".toList ++ bd ++ "-seg-".toList ++ sd := by
        unfold stripTsSuffix
        rw [if_pos]
        · have hlen : ("break-".toList ++ bd ++ "-seg-".toList ++ sd ++ ".ts".toList).length - 3 =
              ("break-".toList ++ bd ++ "-seg-".toList ++ sd).length := by
            simp
            omega
          rw [hlen]
          rw [show "break-".toList ++ bd ++ "-seg-".toList ++ sd ++ ".ts".toList =
            ("break-".toList ++ bd ++ "-seg-".toList ++ sd) ++ ['.', 't', 's'] by simp]
          exact List.take_left' rfl
        · rw [List.isSuffixOf_iff_suffix]
          exact ⟨"break-".toList ++ bd ++ "-seg-".toList ++ sd, by simp⟩
      rw [parse_segment_index_eq, hsuff, splitOnChar_ad_name bd sd hbd hsd]
      rw [if_pos (by refine ⟨by simp, rfl, rfl⟩)]
      exact rustParseUsize_digits sd hsne hsd hv
    have hnostrip : stripTsSuffix ("break-".toList ++ bd ++ "-seg-".toList ++ sd) =
        "break-".toList ++ bd ++ "-seg-".toList ++ sd := by
      unfold stripTsSuffix
      rw [if_neg]
      intro habs
      rw [List.isSuffixOf_iff_suffix] at habs
      obtain ⟨init, lst, hsd_eq⟩ : ∃ init lst, sd = init ++ [lst] := by
        rcases List.eq_nil_or_concat sd with h0 | ⟨L, b, hLb⟩
        · exact absurd h0 hsne
        · exact ⟨L, b, by simpa [List.concat_eq_append] using hLb⟩
      obtain ⟨pre, hpre⟩ := habs
      have h1 := congrArg List.getLast? hpre
      have hlit : (['.', 't', 's'] : List Char).getLast? = some 's' := rfl
      rw [hsd_eq] at h1
      simp only [List.getLast?_append, hlit, List.getLast?_singleton, Option.or_some] at h1
      have hlst : lst = 's' := by
        cases h1
        rfl
      have hlst_digit : lst.isDigit = true := by
        have hmem : lst ∈ sd := by
          rw [hsd_eq]
          simp
        simpa using (List.all_eq_true.mp hsd lst hmem)
      rw [hlst] at hlst_digit
      exact absurd hlst_digit (by decide)
    have hnosuffix : parse_segment_index ("break-".toList ++ bd ++ "-seg-".toList ++ sd) =
        some (digitsVal sd) := by
      rw [parse_segment_index_eq, hnostrip, splitOnChar_ad_name bd sd hbd hsd]
      rw [if_pos (by refine ⟨by simp, rfl, rfl⟩)]
      exact rustParseUsize_digits sd hsne hsd hv
    refine ⟨hts, hnosuffix, ?_⟩
    rw [resolve_segment_url, hts]
    rfl
  · intro name hpre
    have hcond : ¬ (4 ≤ (splitOnChar '-' (stripTsSuffix name)).length ∧
        (splitOnChar '-' (stripTsSuffix name)).get? 0 = some "break".toList ∧
        (splitOnChar '-' (stripTsSuffix name)).get? 2 = some "seg".toList) := by
      rintro ⟨hlen, h0, -⟩
      obtain ⟨p, ps, hp⟩ :=
        List.exists_cons_of_ne_nil (splitOnChar_ne_nil '-' (stripTsSuffix name))
      rw [hp] at h0 hlen
      simp at h0
      subst h0
      rcases splitOnChar_head_shape '-' (stripTsSuffix name) _ _ hp with ⟨hps, _⟩ | hshape
      · subst hps
        simp at hlen
      · exact hpre (by simpa using hshape)
    rw [parse_segment_index_eq, if_neg hcond]
  · intro p sid name hnone
    simp [serve_ad_resolution, resolve_segment_with_tracking, resolve_segment_url, hnone]

/-- Concrete instantiation of the amended ad-resolver theorem: the
exact-shape name `break-7-seg-12.ts` parses to segment index 12, and the
unparseable name `bogus` is answered with the internal-error kind. -/
theorem C3_ad_resolver_amended_witness :
    parse_segment_index "break-7-seg-12.ts".toList = some 12 ∧
    serve_ad_resolution ⟨"http://ads", 1, 10⟩ "bogus".toList "s" =
      Except.error RitcherErrorKind.internalError := by
  constructor
  · have h := (C3_ad_resolver_amended.1 ⟨"http://ads", 1, 10⟩ "s" ['7'] ['1', '2']
      (by decide) (by decide) (by decide) (by decide) (by decide)).1
    rw [show "break-7-seg-12.ts".toList =
      "break-".toList ++ ['7'] ++ "-seg-".toList ++ ['1', '2'] ++ ".ts".toList from by decide]
    rw [h]
    decide
  · exact C3_ad_resolver_amended.2.2.1 ⟨"http://ads", 1, 10⟩ "s" "bogus".toList rfl

/-- Rust `f as usize` applied to a binary32 value embedded as an exact
rational: truncation toward zero, clamping negatives to zero and
saturating at `usize::MAX` on a 64-bit target; the overflow stand-in
`2 ^ 128` produced by `f32round` saturates exactly as the IEEE infinity
does. -/
def rustF32ToUsize (q : ℚ) : Nat :=
  if q < 0 then 0 else min (Int.toNat ⌊q⌋) (2 ^ 64 - 1)

/-- Round a rational to the nearest integer, ties to even - the IEEE-754
default rounding, applied after scaling into the significand grid. -/
def rne (u : ℚ) : ℤ :=
  if Int.fract u < 1 / 2 then ⌊u⌋
  else if 1 / 2 < Int.fract u then ⌊u⌋ + 1
  else if ⌊u⌋ % 2 = 0 then ⌊u⌋ else ⌊u⌋ + 1

/-- Exponent of the binary32 unit in the last place at magnitude `q`:
normal numbers carry 24 significand bits, subnormals bottom out at
`2 ^ (-149)`. -/
def f32ulp (q : ℚ) : ℤ := max (-149) (Int.log 2 q - 23)

/-- The nearest binary32 grid point to a positive rational. -/
def f32roundPos (q : ℚ) : ℚ := (rne (q / 2 ^ f32ulp q) : ℚ) * 2 ^ f32ulp q

/-- Round an exact rational to the nearest binary32 value
(round-to-nearest, ties to even) - the rounding Rust applies to every
`f32` arithmetic result.  A magnitude rounding past the largest finite
binary32 yields `2 ^ 128`, standing in for the IEEE infinity; the
saturating integer casts treat the two alike. -/
def f32round (q : ℚ) : ℚ :=
  if q = 0 then 0 else if q < 0 then -f32roundPos (-q) else f32roundPos q

/-- Embeds Rust `f32` division on a nonnegative dividend and a positive
divisor (the domain `get_ad_segments` uses it on): the exact quotient,
rounded to the nearest binary32. -/
def f32div (a b : ℚ) : ℚ := f32round (a / b)

/-- Embeds Rust `f32::ceil`: exact on every binary32 argument, since a
finite binary32 with magnitude at least `2 ^ 23` is already an integer,
and any smaller magnitude ceils to an integer of magnitude at most
`2 ^ 23`, which is representable. -/
def f32ceil (q : ℚ) : ℚ := (⌈q⌉ : ℚ)

/-- Embeds `StaticAdProvider::get_ad_segments` (src/ad/provider.rs:192):
`(duration / segment_duration).ceil() as usize` computed in `f32`,
floored at one segment; each generated segment has the configured
duration and an indexed URI. -/
def get_ad_segments (p : StaticAdProvider) (duration : ℚ) (_session_id : String) :
    List AdSegment :=
  let num_segments := rustF32ToUsize (f32ceil (f32div duration p.segment_duration))
  let num_segments := max num_segments 1
  (List.range num_segments).map fun i =>
    { uri := p.ad_source_url ++ "/ad-segment-" ++ toString i ++ ".ts",
      duration := p.segment_duration,
      tracking := none }

/-- The total duration of the generated segments is the segment count
times the configured segment duration. -/
theorem get_ad_segments_sum (p : StaticAdProvider) (d : ℚ) (sid : String) :
    ((get_ad_segments p d sid).map (fun seg => seg.duration)).sum =
      ((get_ad_segments p d sid).length : ℚ) * p.segment_duration := by
  simp only [get_ad_segments, List.map_map, List.length_map, List.length_range]
  rw [show ((fun seg : AdSegment => seg.duration) ∘ fun i =>
      ({ uri := p.ad_source_url ++ "/ad-segment-" ++ toString i ++ ".ts",
         duration := p.segment_duration, tracking := none } : AdSegment)) =
      fun _ => p.segment_duration from rfl]
  rw [List.map_const', List.sum_replicate, List.length_range, nsmul_eq_mul]

/-- The base-two logarithm underlying `f32ulp`, characterized by the
enclosing powers of two. -/
theorem int_log2_eq {q : ℚ} {k : ℤ} (h1 : (2 : ℚ) ^ k ≤ q) (h2 : q < (2 : ℚ) ^ (k + 1)) :
    Int.log 2 q = k := by
  have h0 : 0 < q := lt_of_lt_of_le (by positivity) h1
  have ha : k ≤ Int.log 2 q :=
    (Int.zpow_le_iff_le_log (by norm_num) h0).mp (by exact_mod_cast h1)
  have hb : Int.log 2 q < k + 1 :=
    (Int.lt_zpow_iff_log_lt (by norm_num) h0).mp (by exact_mod_cast h2)
  omega

/-- Rounding an integer to the nearest integer is the identity. -/
theorem rne_intCast (n : ℤ) : rne (n : ℚ) = n := by
  unfold rne
  rw [Int.fract_intCast, if_pos (by norm_num), Int.floor_intCast]

/-- Evaluation rule for `f32round` on a positive rational whose binade
`[2 ^ k, 2 ^ (k + 1))` is known. -/
theorem f32round_pos_eq {q : ℚ} {k : ℤ} (h1 : (2 : ℚ) ^ k ≤ q) (h2 : q < (2 : ℚ) ^ (k + 1)) :
    f32round q =
      (rne (q / 2 ^ max (-149 : ℤ) (k - 23)) : ℚ) * 2 ^ max (-149 : ℤ) (k - 23) := by
  have h0 : 0 < q := lt_of_lt_of_le (by positivity) h1
  rw [f32round, if_neg h0.ne', if_neg (not_lt.mpr h0.le), f32roundPos, f32ulp,
    int_log2_eq h1 h2]

/-- A positive rational lying on the binary32 grid of its binade is a
fixed point of `f32round`, i.e. it is exactly representable. -/
theorem f32round_fix {q : ℚ} {k n : ℤ} (h1 : (2 : ℚ) ^ k ≤ q) (h2 : q < (2 : ℚ) ^ (k + 1))
    (hn : q = (n : ℚ) * 2 ^ max (-149 : ℤ) (k - 23)) :
    f32round q = q := by
  rw [f32round_pos_eq h1 h2]
  have hpow : (0 : ℚ) < 2 ^ max (-149 : ℤ) (k - 23) := by positivity
  rw [hn, mul_div_cancel_right₀ _ hpow.ne', rne_intCast]

/-- The quotient 25165828 / 3 has floor 8388609. -/
theorem c7_quot_floor : ⌊(25165828 : ℚ) / 3⌋ = 8388609 := by
  rw [Int.floor_eq_iff]
  norm_num

/-- The quotient 25165828 / 3 = 8388609.33... rounds down to the nearest
integer (its fractional part 1/3 is below one half). -/
theorem c7_quot_rne : rne ((25165828 : ℚ) / 3) = 8388609 := by
  unfold rne
  unfold Int.fract
  rw [c7_quot_floor, if_pos (by norm_num)]

/-- The `f32` quotient of 25165828 by 3: the exact value sits in the
binade `[2 ^ 23, 2 ^ 24)` where the grid spacing is 1, so it rounds to
the integer 8388609 - strictly below the exact quotient. -/
theorem c7_quot_f32div : f32div 25165828 3 = 8388609 := by
  rw [f32div, f32round_pos_eq (k := 23) (by norm_num) (by norm_num)]
  rw [show max (-149 : ℤ) (23 - 23) = 0 from by norm_num, zpow_zero, div_one, mul_one,
    c7_quot_rne]
  norm_num

/-- Segment count generated for a 25165828-second break with 3-second
segments: 8388609, one short of the exact ceiling 8388610. -/
theorem c7_len_rounding :
    (get_ad_segments ⟨"http://ads", 3, 10⟩ 25165828 "sess").length = 8388609 := by
  simp only [get_ad_segments, List.length_map, List.length_range]
  rw [show f32div 25165828 (⟨"http://ads", 3, 10⟩ : StaticAdProvider).segment_duration =
    ((8388609 : ℤ) : ℚ) from by rw [c7_quot_f32div]; norm_num]
  rw [f32ceil, Int.ceil_intCast]
  simp only [rustF32ToUsize]
  rw [if_neg (by push_cast; norm_num), Int.floor_intCast]
  norm_num
  decide

/-- The `f32` quotient of `2 ^ 65` by 1 is exact. -/
theorem c7_sat_f32div : f32div (2 ^ 65) 1 = 2 ^ 65 := by
  rw [f32div, div_one]
  exact f32round_fix (k := 65) (n := 2 ^ 23) (by norm_num) (by norm_num) (by norm_num)

/-- Segment count generated for a `2 ^ 65`-second break with 1-second
segments: the saturating usize cast caps it at `2 ^ 64 - 1`. -/
theorem c7_sat_len :
    (get_ad_segments ⟨"http://ads", 1, 10⟩ (2 ^ 65) "sess").length = 2 ^ 64 - 1 := by
  simp only [get_ad_segments, List.length_map, List.length_range]
  rw [show f32div (2 ^ 65) (⟨"http://ads", 1, 10⟩ : StaticAdProvider).segment_duration =
    ((2 ^ 65 : ℤ) : ℚ) from by rw [show ((⟨"http://ads", 1, 10⟩ :
      StaticAdProvider).segment_duration) = (1 : ℚ) from rfl, c7_sat_f32div]; norm_num]
  rw [f32ceil, Int.ceil_intCast]
  simp only [rustF32ToUsize]
  rw [if_neg (by push_cast; norm_num), Int.floor_intCast]
  norm_num

/-- C7 counterexample: the claimed count `max ⌈d / s⌉ 1` and total
duration `≥ d` both fail on real `f32` inputs.  With segment duration 3
and break duration 25165828 - both exactly representable in binary32, as
the first two conjuncts record - the `f32` quotient rounds down to
8388609, one segment short of `⌈25165828 / 3⌉ = 8388610`, so the total
duration 25165827 falls short of the break; and with segment duration 1
and break duration `2 ^ 65` (also exact in binary32) the saturating
usize cast caps the count at `2 ^ 64 - 1`, again leaving the total short
of the break. -/
theorem C7_f32_counterexample :
    f32round (25165828 : ℚ) = 25165828 ∧ f32round (3 : ℚ) = 3 ∧
    (get_ad_segments ⟨"http://ads", 3, 10⟩ 25165828 "sess").length ≠
      max (Int.toNat ⌈(25165828 : ℚ) / 3⌉) 1 ∧
    ¬ ((25165828 : ℚ) ≤ ((get_ad_segments ⟨"http://ads", 3, 10⟩ 25165828 "sess").map
        (fun seg => seg.duration)).sum) ∧
    f32round ((2 : ℚ) ^ 65) = 2 ^ 65 ∧
    ¬ ((2 ^ 65 : ℚ) ≤ ((get_ad_segments ⟨"http://ads", 1, 10⟩ (2 ^ 65) "sess").map
        (fun seg => seg.duration)).sum) := by
  have hceil : ⌈(25165828 : ℚ) / 3⌉ = 8388610 := by
    rw [Int.ceil_eq_iff]
    norm_num
  refine ⟨f32round_fix (k := 24) (n := 12582914) (by norm_num) (by norm_num) (by norm_num),
    f32round_fix (k := 1) (n := 12582912) (by norm_num) (by norm_num) (by norm_num),
    ?_, ?_,
    f32round_fix (k := 65) (n := 2 ^ 23) (by norm_num) (by norm_num) (by norm_num), ?_⟩
  · rw [c7_len_rounding, hceil]
    decide
  · rw [get_ad_segments_sum, c7_len_rounding]
    push_cast
    norm_num
  · rw [get_ad_segments_sum, c7_sat_len]
    push_cast
    norm_num

/-- C7 (amended): for binary32 values `d ≥ 0` and `s > 0` whose quotient
`d / s` is itself exactly representable in binary32 and within the
saturation bound `(2 ^ 64 - 1) * s`, `get_ad_segments` returns exactly
`max ⌈d / s⌉ 1` segments - a non-empty list, each segment of duration
`s`, with total duration at least `d`.  Outside these bounds the claim
fails: an inexact `f32` quotient can round below the exact value and
lose a segment, and past the bound the saturating cast caps the count,
as the counterexample records. -/
theorem C7_get_ad_segments_amended (p : StaticAdProvider) (d : ℚ) (sid : String)
    (hs : 0 < p.segment_duration) (hd : 0 ≤ d)
    (_hdr : f32round d = d) (_hsr : f32round p.segment_duration = p.segment_duration)
    (hexact : f32round (d / p.segment_duration) = d / p.segment_duration)
    (hbound : d ≤ (2 ^ 64 - 1 : ℚ) * p.segment_duration) :
    (get_ad_segments p d sid).length = max (Int.toNat ⌈d / p.segment_duration⌉) 1 ∧
    get_ad_segments p d sid ≠ [] ∧
    (∀ seg ∈ get_ad_segments p d sid, seg.duration = p.segment_duration) ∧
    d ≤ ((get_ad_segments p d sid).map (fun seg => seg.duration)).sum := by
  have hq : 0 ≤ d / p.segment_duration := div_nonneg hd hs.le
  have hc0 : 0 ≤ ⌈d / p.segment_duration⌉ := Int.ceil_nonneg hq
  have hcle : ⌈d / p.segment_duration⌉ ≤ 2 ^ 64 - 1 := by
    rw [Int.ceil_le]
    rw [div_le_iff₀ hs]
    calc d ≤ (2 ^ 64 - 1 : ℚ) * p.segment_duration := hbound
      _ = ((2 ^ 64 - 1 : ℤ) : ℚ) * p.segment_duration := by push_cast; ring
  have hdiv : f32ceil (f32div d p.segment_duration) =
      ((⌈d / p.segment_duration⌉ : ℤ) : ℚ) := by
    rw [f32div, hexact, f32ceil]
  have hcast : rustF32ToUsize ((⌈d / p.segment_duration⌉ : ℤ) : ℚ) =
      Int.toNat ⌈d / p.segment_duration⌉ := by
    unfold rustF32ToUsize
    rw [if_neg (not_lt.mpr (by exact_mod_cast hc0)), Int.floor_intCast]
    apply min_eq_left
    omega
  have hlen : (get_ad_segments p d sid).length =
      max (Int.toNat ⌈d / p.segment_duration⌉) 1 := by
    simp only [get_ad_segments, List.length_map, List.length_range, hdiv, hcast]
  refine ⟨hlen, ?_, ?_, ?_⟩
  · intro habs
    have := congrArg List.length habs
    rw [hlen] at this
    simp at this
  · intro seg hmem
    simp only [get_ad_segments, List.mem_map, List.mem_range] at hmem
    obtain ⟨i, _, hi⟩ := hmem
    rw [← hi]
  · rw [get_ad_segments_sum, hlen]
    have hdc : d ≤ (⌈d / p.segment_duration⌉ : ℚ) * p.segment_duration := by
      rw [← div_le_iff₀ hs]
      exact Int.le_ceil _
    refine le_trans hdc ?_
    apply mul_le_mul_of_nonneg_right _ hs.le
    have h1 : (⌈d / p.segment_duration⌉ : ℚ) ≤
        ((Int.toNat ⌈d / p.segment_duration⌉ : ℤ) : ℚ) := by
      exact_mod_cast Int.self_le_toNat _
    refine le_trans h1 ?_
    have h2 : (Int.toNat ⌈d / p.segment_duration⌉ : ℕ) ≤
        max (Int.toNat ⌈d / p.segment_duration⌉) 1 := le_max_left _ _
    exact_mod_cast h2

/-- Concrete instantiation of the amended segment-count theorem: a
25-second break with 10-second ad segments - 25, 10 and the quotient 2.5
all exact in binary32 - yields three segments. -/
theorem C7_get_ad_segments_amended_witness :
    (get_ad_segments ⟨"http://ads", 10, 10⟩ 25 "sess").length = 3 ∧
    (25 : ℚ) ≤ ((get_ad_segments ⟨"http://ads", 10, 10⟩ 25 "sess").map
      (fun seg => seg.duration)).sum := by
  have h := C7_get_ad_segments_amended ⟨"http://ads", 10, 10⟩ 25 "sess"
    (by norm_num) (by norm_num)
    (f32round_fix (k := 4) (n := 13107200) (by norm_num) (by norm_num) (by norm_num))
    (f32round_fix (k := 3) (n := 10485760) (by norm_num) (by norm_num) (by norm_num))
    (f32round_fix (k := 1) (n := 10485760) (by norm_num) (by norm_num) (by norm_num))
    (by norm_num)
  refine ⟨?_, h.2.2.2⟩
  rw [h.1]
  have hc : ⌈(25 : ℚ) / (⟨"http://ads", 10, 10⟩ : StaticAdProvider).segment_duration⌉ = 3 := by
    show ⌈(25 : ℚ) / 10⌉ = 3
    norm_num
    rw [Int.ceil_eq_iff]
    norm_num
  rw [hc]
  decide

/-! ### Rate limiter (src/server/rate_limit.rs)

The fixed-window counter keyed by client IP.  `Instant`s are embedded as
natural-number timestamps; `elapsed` is truncated subtraction against a
single per-call `now`, and the DashMap of counters is a function from IP
strings to optional `(count, window_start)` pairs.  The count and the
limit are `u32` in the source, so counts are reduced modulo `2 ^ 32`
where the source increments. -/

/-- Rate limiter configuration (src/server/rate_limit.rs:21); `limit` is
the `u32` passed to `RateLimiter::new(requests_per_minute: u32)`. -/
structure RateLimiter where
  limit : Nat
  window : Nat
deriving DecidableEq

/-- The per-IP counter map backing the limiter. -/
def RateState : Type := String → Option (Nat × Nat)

/-- The limiter's initial, empty counter map. -/
def emptyRateState : RateState := fun _ => none

/-- Embeds `RateLimiter::check` (src/server/rate_limit.rs:42) at instant
`now`: fetch or create the entry `(0, now)`, reset it when the window
has elapsed, increment the `u32` count - wrapping modulo `2 ^ 32` on
overflow, as the release-build `entry.0 += 1` does (a debug build panics
there instead; either way the over-limit check is not rejected) - and
admit while the count is within the limit; returns the verdict and the
updated counter map. -/
def RateLimiter.check (rl : RateLimiter) (st : RateState) (ip : String) (now : Nat) :
    Bool × RateState :=
  let e := (st ip).getD (0, now)
  let e := if rl.window ≤ now - e.2 then (0, now) else e
  let c := (e.1 + 1) % 2 ^ 32
  (decide (c ≤ rl.limit), fun k => if k = ip then some (c, e.2) else st k)

/-- A sequence of checks for one IP at the given instants, threading the
counter map. -/
def runChecks (rl : RateLimiter) (ip : String) : RateState → List Nat → List Bool × RateState
  | st, [] => ([], st)
  | st, t :: ts =>
    let r := RateLimiter.check rl st ip t
    let rest := runChecks rl ip r.2 ts
    (r.1 :: rest.1, rest.2)

/-- Running checks at instants inside the current window counts up from
the stored count modulo `2 ^ 32`: the j-th verdict admits iff the
incremented, wrapped count is within the limit, the final count grows by
the number of checks modulo `2 ^ 32` with the window start unchanged,
and other IPs' entries are untouched. -/
theorem runChecks_spec (rl : RateLimiter) (ip : String) (c t0 : Nat) (st : RateState)
    (hst : st ip = some (c, t0)) (hc : c < 2 ^ 32) (ts : List Nat)
    (hts : ∀ t ∈ ts, t - t0 < rl.window) :
    (∀ j, j < ts.length →
      (runChecks rl ip st ts).1.get? j = some (decide ((c + j + 1) % 2 ^ 32 ≤ rl.limit))) ∧
    (runChecks rl ip st ts).2 ip = some ((c + ts.length) % 2 ^ 32, t0) ∧
    (∀ k, k ≠ ip → (runChecks rl ip st ts).2 k = st k) := by
  have hm : (0 : ℕ) < 2 ^ 32 := by norm_num
  induction ts generalizing st c with
  | nil =>
    refine ⟨?_, ?_, ?_⟩
    · intro j hj
      simp at hj
    · simp only [runChecks, List.length_nil, Nat.add_zero]
      rw [Nat.mod_eq_of_lt hc]
      exact hst
    · intro k hk
      simp [runChecks]
  | cons t ts ih =>
    have hw : ¬ rl.window ≤ t - t0 := by
      have := hts t (List.mem_cons_self t ts)
      omega
    have hcheck : RateLimiter.check rl st ip t =
        (decide ((c + 1) % 2 ^ 32 ≤ rl.limit),
          fun k => if k = ip then some ((c + 1) % 2 ^ 32, t0) else st k) := by
      simp only [RateLimiter.check, hst]
      simp [hw]
    obtain ⟨h1, h2, h3⟩ := ih ((c + 1) % 2 ^ 32)
      (fun k => if k = ip then some ((c + 1) % 2 ^ 32, t0) else st k)
      (by simp) (Nat.mod_lt _ hm) (fun t2 ht2 => hts t2 (List.mem_cons_of_mem t ht2))
    refine ⟨?_, ?_, ?_⟩
    · intro j hj
      cases j with
      | zero => simp [runChecks, hcheck]
      | succ j =>
        have hj2 : j < ts.length := by simpa using hj
        simp only [runChecks, hcheck, List.get?_cons_succ]
        rw [h1 j hj2]
        have harith : ((c + 1) % 2 ^ 32 + j + 1) % 2 ^ 32 = (c + (j + 1) + 1) % 2 ^ 32 := by
          rw [Nat.add_assoc, Nat.mod_add_mod,
            show c + 1 + (j + 1) = c + (j + 1) + 1 from by omega]
        rw [harith]
    · simp only [runChecks, hcheck]
      rw [h2]
      have harith : ((c + 1) % 2 ^ 32 + ts.length) % 2 ^ 32 =
          (c + (ts.length + 1)) % 2 ^ 32 := by
        rw [Nat.mod_add_mod, show c + 1 + ts.length = c + (ts.length + 1) from by omega]
      rw [harith]
      rfl
    · intro k hk
      simp only [runChecks, hcheck]
      rw [h3 k hk]
      simp [hk]

/-- C8 counterexample: the claim quantifies over every limit `L ≥ 1`,
and at `L = u32::MAX = 2 ^ 32 - 1` - a limit `RateLimiter::new` accepts -
check `L + 1` within one window wraps the `u32` counter to zero and is
admitted, not rejected as claimed.  Concretely: the trace lies in the
claim's domain (`L ≥ 1`, `L` further in-window checks after the first,
recorded by the first three conjuncts), yet the verdict at index `L`
(check `L + 1`) is not `some false`. -/
theorem C8_wrap_counterexample :
    1 ≤ 2 ^ 32 - 1 ∧
    (List.replicate (2 ^ 32 - 1) (0 : Nat)).length = 2 ^ 32 - 1 ∧
    (∀ t ∈ List.replicate (2 ^ 32 - 1) (0 : Nat), t - 0 < 60) ∧
    (runChecks ⟨2 ^ 32 - 1, 60⟩ "198.51.100.7" emptyRateState
        (0 :: List.replicate (2 ^ 32 - 1) (0 : Nat))).1.get? (2 ^ 32 - 1) ≠ some false := by
  have hone : (1 : ℕ) % 2 ^ 32 = 1 := Nat.mod_eq_of_lt (by norm_num)
  refine ⟨by norm_num, by rw [List.length_replicate], ?_, ?_⟩
  · intro t ht
    rw [List.eq_of_mem_replicate ht]
    norm_num
  · generalize hgen : List.replicate (2 ^ 32 - 1) (0 : Nat) = l
    have hlen : l.length = 2 ^ 32 - 1 := by rw [← hgen, List.length_replicate]
    have hmem : ∀ t ∈ l, t - 0 < 60 := by
      intro t ht
      rw [← hgen] at ht
      rw [List.eq_of_mem_replicate ht]
      norm_num
    have hcheck0 : RateLimiter.check ⟨2 ^ 32 - 1, 60⟩ emptyRateState "198.51.100.7" 0 =
        (decide (1 ≤ 2 ^ 32 - 1),
          fun k => if k = "198.51.100.7" then some (1, 0) else emptyRateState k) := by
      simp [RateLimiter.check, emptyRateState, hone]
    obtain ⟨h1, -, -⟩ := runChecks_spec ⟨2 ^ 32 - 1, 60⟩ "198.51.100.7" 1 0
      (fun k => if k = "198.51.100.7" then some (1, 0) else emptyRateState k) (by simp)
      (by norm_num) l hmem
    have hget : ∀ (b : Bool) (m : List Bool),
        (b :: m).get? (2 ^ 32 - 1) = m.get? (2 ^ 32 - 2) := by
      intro b m
      rw [show (2 : ℕ) ^ 32 - 1 = (2 ^ 32 - 2) + 1 from by norm_num, List.get?_cons_succ]
    have hrun : runChecks ⟨2 ^ 32 - 1, 60⟩ "198.51.100.7" emptyRateState (0 :: l) =
        ((decide (1 ≤ 2 ^ 32 - 1)) ::
          (runChecks ⟨2 ^ 32 - 1, 60⟩ "198.51.100.7"
            (fun k => if k = "198.51.100.7" then some (1, 0) else emptyRateState k) l).1,
          (runChecks ⟨2 ^ 32 - 1, 60⟩ "198.51.100.7"
            (fun k => if k = "198.51.100.7" then some (1, 0) else emptyRateState k) l).2) := by
      simp only [runChecks, hcheck0]
    rw [hrun, hget]
    rw [h1 (2 ^ 32 - 2) (by rw [hlen]; norm_num)]
    have hmod : (1 + (2 ^ 32 - 2) + 1) % 2 ^ 32 = 0 := by norm_num
    rw [hmod]
    simp

/-- C8 (amended): with limit `1 ≤ L` small enough that `L + 1` fits in
the `u32` counter (`L + 1 < 2 ^ 32`, i.e. every limit below `u32::MAX`)
and a positive window, a fresh IP checked at `t0` and then at `L`
further instants inside the window is admitted the first `L` times and
rejected on check `L + 1`; the first check after the window has expired
is admitted again; and checks from any other IP neither change this IP's
counter nor are influenced by it.  At `L = u32::MAX` itself the counter
wraps and the over-limit check is admitted, as the counterexample
records. -/
theorem C8_rate_limiter_amended (L W : Nat) (hL : 1 ≤ L) (hu : L + 1 < 2 ^ 32) (hW : 0 < W)
    (st0 : RateState) (ip : String) (hfresh : st0 ip = none)
    (t0 : Nat) (rest : List Nat) (hrest : ∀ t ∈ rest, t - t0 < W) (hlen : rest.length = L)
    (te : Nat) (hte : W ≤ te - t0) :
    (∀ j, j < L → (runChecks ⟨L, W⟩ ip st0 (t0 :: rest)).1.get? j = some true) ∧
    (runChecks ⟨L, W⟩ ip st0 (t0 :: rest)).1.get? L = some false ∧
    (RateLimiter.check ⟨L, W⟩ (runChecks ⟨L, W⟩ ip st0 (t0 :: rest)).2 ip te).1 = true ∧
    (∀ k, k ≠ ip → (runChecks ⟨L, W⟩ ip st0 (t0 :: rest)).2 k = st0 k) ∧
    (∀ (st : RateState) (ip2 : String) (t : Nat), ip2 ≠ ip →
      (RateLimiter.check ⟨L, W⟩ st ip2 t).2 ip = st ip) := by
  have h32 : (2 : ℕ) ^ 32 = 4294967296 := by norm_num
  rw [h32] at hu
  have hone : (1 : ℕ) % 2 ^ 32 = 1 := Nat.mod_eq_of_lt (by norm_num)
  have hcheck0 : RateLimiter.check ⟨L, W⟩ st0 ip t0 =
      (decide (1 ≤ L), fun k => if k = ip then some (1, t0) else st0 k) := by
    simp [RateLimiter.check, hfresh, hone]
  obtain ⟨h1, h2, h3⟩ := runChecks_spec ⟨L, W⟩ ip 1 t0
    (fun k => if k = ip then some (1, t0) else st0 k) (by simp) (by norm_num) rest hrest
  have hrun : runChecks ⟨L, W⟩ ip st0 (t0 :: rest) =
      ((decide (1 ≤ L)) ::
        (runChecks ⟨L, W⟩ ip (fun k => if k = ip then some (1, t0) else st0 k) rest).1,
        (runChecks ⟨L, W⟩ ip (fun k => if k = ip then some (1, t0) else st0 k) rest).2) := by
    simp only [runChecks, hcheck0]
  refine ⟨?_, ?_, ?_, ?_, ?_⟩
  · intro j hj
    cases j with
    | zero =>
      rw [hrun]
      simp [hL]
    | succ j =>
      rw [hrun]
      simp only [List.get?_cons_succ]
      rw [h1 j (by omega)]
      have hmod : (1 + j + 1) % 2 ^ 32 = 1 + j + 1 :=
        Nat.mod_eq_of_lt (by rw [h32]; omega)
      rw [hmod]
      have hj2 : 1 + j + 1 ≤ L := by omega
      simp [hj2]
  · rw [hrun]
    obtain ⟨Lm, rfl⟩ : ∃ Lm, L = Lm + 1 := ⟨L - 1, by omega⟩
    simp only [List.get?_cons_succ]
    rw [h1 Lm (by omega)]
    have hmod : (1 + Lm + 1) % 2 ^ 32 = 1 + Lm + 1 :=
      Nat.mod_eq_of_lt (by rw [h32]; omega)
    rw [hmod]
    have hgt : ¬ (1 + Lm + 1 ≤ Lm + 1) := by omega
    simp [hgt]
  · rw [hrun]
    have hfinal : (runChecks ⟨L, W⟩ ip
        (fun k => if k = ip then some (1, t0) else st0 k) rest).2 ip =
          some ((1 + rest.length) % 2 ^ 32, t0) := h2
    simp only [RateLimiter.check, hfinal]
    simp [hte, hL, hone]
  · intro k hk
    rw [hrun]
    rw [h3 k hk]
    simp [hk]
  · intro st ip2 t hip2
    have hne : ¬ ip = ip2 := fun h => hip2 h.symm
    simp [RateLimiter.check, hne]

/-- Concrete instantiation of the amended rate-limiter theorem: limit 2,
window 60, checks at instants 0, 10, 20 and a reset check at 100. -/
theorem C8_rate_limiter_amended_witness :
    (∀ j, j < 2 → (runChecks ⟨2, 60⟩ "203.0.113.5" emptyRateState [0, 10, 20]).1.get? j =
      some true) ∧
    (runChecks ⟨2, 60⟩ "203.0.113.5" emptyRateState [0, 10, 20]).1.get? 2 = some false ∧
    (RateLimiter.check ⟨2, 60⟩ (runChecks ⟨2, 60⟩ "203.0.113.5" emptyRateState [0, 10, 20]).2
      "203.0.113.5" 100).1 = true ∧
    (∀ k, k ≠ "203.0.113.5" →
      (runChecks ⟨2, 60⟩ "203.0.113.5" emptyRateState [0, 10, 20]).2 k = emptyRateState k) ∧
    (∀ (st : RateState) (ip2 : String) (t : Nat), ip2 ≠ "203.0.113.5" →
      (RateLimiter.check ⟨2, 60⟩ st ip2 t).2 "203.0.113.5" = st "203.0.113.5") :=
  C8_rate_limiter_amended 2 60 (by norm_num) (by norm_num) (by norm_num)
    emptyRateState "203.0.113.5" rfl 0 [10, 20] (by decide) rfl 100 (by norm_num)

/-! ### Session store (src/session/manager.rs)

The in-memory backend: a DashMap from session id to session record,
embedded as a function to optional sessions; `SystemTime` instants are
natural numbers. -/

/-- Session record (src/session/manager.rs:14). -/
structure Session where
  session_id : String
  origin_url : String
  created_at : Nat
  last_accessed : Nat
deriving DecidableEq

/-- The in-memory session map. -/
def SessionStore : Type := String → Option Session

/-- The empty session map. -/
def emptySessionStore : SessionStore := fun _ => none

/-- Embeds the in-memory branch of `SessionManager::get_or_create`
(src/session/manager.rs:95): `entry(id).or_insert_with(...)` returns the
stored session when the id is present and otherwise inserts a fresh
session carrying the supplied origin with both timestamps set to now. -/
def get_or_create (st : SessionStore) (session_id origin_url : String) (now : Nat) :
    Session × SessionStore :=
  match st session_id with
  | some s => (s, st)
  | none =>
    let s : Session := ⟨session_id, origin_url, now, now⟩
    (s, fun k => if k = session_id then some s else st k)

/-- Embeds the in-memory branch of `SessionManager::get`
(src/session/manager.rs:180). -/
def session_get (st : SessionStore) (session_id : String) : Option Session :=
  st session_id

/-- C9: `get_or_create` is idempotent and never overwrites the origin:
starting from a store without the id, creating with origin `A` and then
calling again with origin `B` returns the existing session, leaves the
store untouched, and `get` yields a session whose origin is still `A`. -/
theorem C9_get_or_create_idempotent (st : SessionStore) (id A B : String) (n1 n2 : Nat)
    (hfresh : st id = none) :
    (get_or_create (get_or_create st id A n1).2 id B n2).1 = (get_or_create st id A n1).1 ∧
    (get_or_create (get_or_create st id A n1).2 id B n2).2 = (get_or_create st id A n1).2 ∧
    (∃ s, session_get (get_or_create (get_or_create st id A n1).2 id B n2).2 id = some s ∧
      s.origin_url = A) := by
  have h1 : get_or_create st id A n1 =
      (⟨id, A, n1, n1⟩, fun k => if k = id then some ⟨id, A, n1, n1⟩ else st k) := by
    simp [get_or_create, hfresh]
  rw [h1]
  have h2 : (fun k => if k = id then some (⟨id, A, n1, n1⟩ : Session) else st k) id =
      some ⟨id, A, n1, n1⟩ := by simp
  refine ⟨?_, ?_, ⟨id, A, n1, n1⟩, ?_, rfl⟩ <;> simp [get_or_create, h2, session_get]

/-- Concrete instantiation of the session-store theorem on the empty
store with two distinct origins. -/
theorem C9_get_or_create_idempotent_witness :
    (get_or_create (get_or_create emptySessionStore "sess" "https://a.example/x.m3u8" 5).2
        "sess" "https://b.example/y.m3u8" 9).1 =
      (get_or_create emptySessionStore "sess" "https://a.example/x.m3u8" 5).1 ∧
    (get_or_create (get_or_create emptySessionStore "sess" "https://a.example/x.m3u8" 5).2
        "sess" "https://b.example/y.m3u8" 9).2 =
      (get_or_create emptySessionStore "sess" "https://a.example/x.m3u8" 5).2 ∧
    (∃ s, session_get
        (get_or_create (get_or_create emptySessionStore "sess" "https://a.example/x.m3u8" 5).2
          "sess" "https://b.example/y.m3u8" 9).2 "sess" = some s ∧
      s.origin_url = "https://a.example/x.m3u8") :=
  C9_get_or_create_idempotent emptySessionStore "sess" "https://a.example/x.m3u8"
    "https://b.example/y.m3u8" 5 9 rfl

/-! ### DASH SGAI rewriter (src/dash/sgai.rs)

The MPD model is restricted to the parts `inject_dash_callbacks` and
`strip_scte35_event_streams` touch: Periods with their EventStreams, each
stream with scheme, timescale and Events.  `f64` values are embedded as
rationals; the only float operation performed is the saturating `as u64`
cast. -/

/-- DASH MPD Event, restricted to the fields the SGAI rewriter sets
(`dash_mpd::Event`). -/
structure DashEvent where
  id : Option String := none
  presentationTime : Option Nat := none
  duration : Option Nat := none
  content : Option String := none
deriving DecidableEq

/-- DASH MPD EventStream, restricted to the fields the SGAI rewriter
reads or sets (`dash_mpd::EventStream`). -/
structure DashEventStream where
  schemeIdUri : Option String := none
  timescale : Option Nat := none
  event : List DashEvent := []
deriving DecidableEq

/-- DASH MPD Period, restricted to its id and EventStreams
(`dash_mpd::Period`). -/
structure DashPeriod where
  id : Option String := none
  event_streams : List DashEventStream := []
deriving DecidableEq

/-- DASH MPD, restricted to its Periods (`dash_mpd::MPD`). -/
structure MPD where
  periods : List DashPeriod
deriving DecidableEq

/-- Modelled from the spec: a detected DASH ad break
(src/dash/cue.rs is not in the snapshot; fields per spec section 3 and
the sgai.rs tests).  The signal kind is omitted — the SGAI rewriter never
reads it. -/
structure DashAdBreak where
  period_index : Nat
  period_id : Option String
  duration : ℚ
  presentation_time : ℚ
deriving DecidableEq

/-- The DASH event-callback scheme URI (src/dash/sgai.rs:22). -/
def CALLBACK_SCHEME : String := "urn:mpeg:dash:event:callback:2015"

/-- Modelled from the spec: `is_scte35_scheme` (src/dash/cue.rs is not in
the snapshot) — an SCTE-35 scheme URI starts with `urn:scte:scte35:`, as
in the sgai.rs tests' `urn:scte:scte35:2013:xml`. -/
def is_scte35_scheme (s : String) : Bool :=
  strStartsWith s "urn:scte:scte35:"

/-- Rust `f as u64` on a float value embedded as an exact rational:
truncation toward zero, clamping negatives to zero and saturating at
`u64::MAX`. -/
def rustF64ToU64 (q : ℚ) : Nat :=
  if q < 0 then 0 else min (Int.toNat ⌊q⌋) (2 ^ 64 - 1)

/-- The callback Event built for one ad break (src/dash/sgai.rs:62-78):
id `ad-break-\x7bb\x7d`, presentation time and duration cast with
`as u64`, and the asset-list URL as text content. -/
def callback_event (session_id base_url : String) (break_idx : Nat)
    (ab : DashAdBreak) : DashEvent :=
  { id := some ("ad-break-" ++ toString break_idx),
    presentationTime := some (rustF64ToU64 ab.presentation_time),
    duration := some (rustF64ToU64 ab.duration),
    content := some (base_url ++ "/stitch/" ++ session_id ++ "/asset-list/" ++
      toString break_idx ++ "?dur=" ++ toString (rustF64ToU64 ab.duration)) }

/-- The enumerated ad breaks that fall in Period `p`, in break order —
the grouping `breaks_by_period` performs in the source. -/
def breaks_for_period (ad_breaks : List DashAdBreak) (p : Nat) : List (Nat × DashAdBreak) :=
  ad_breaks.enum.filter (fun bi => bi.2.period_index == p)

/-- The consolidated callback EventStream for one Period's breaks
(src/dash/sgai.rs:82-87). -/
def callback_stream (session_id base_url : String)
    (breaks : List (Nat × DashAdBreak)) : DashEventStream :=
  { schemeIdUri := some CALLBACK_SCHEME,
    timescale := some 1,
    event := breaks.map (fun bi => callback_event session_id base_url bi.1 bi.2) }

/-- Embeds `inject_dash_callbacks` (src/dash/sgai.rs:34): with no breaks
the MPD is unchanged; otherwise every existing Period hosting at least
one break gains the consolidated callback EventStream for its breaks,
appended after its present streams.  The source groups breaks into a
HashMap and walks it in arbitrary order; each Period is touched at most
once, so the per-Period effect embedded here is exactly the source's,
and out-of-range period indices are skipped in both. -/
def inject_dash_callbacks (mpd : MPD) (ad_breaks : List DashAdBreak)
    (session_id base_url : String) : MPD :=
  if ad_breaks.isEmpty then mpd
  else
    { periods := mpd.periods.mapIdx fun p period =>
        let breaks := breaks_for_period ad_breaks p
        if breaks.isEmpty then period
        else { period with event_streams :=
          period.event_streams ++ [callback_stream session_id base_url breaks] } }

/-- Embeds `strip_scte35_event_streams` (src/dash/sgai.rs:103): retain,
in every Period, only the EventStreams whose scheme is not SCTE-35. -/
def strip_scte35_event_streams (mpd : MPD) : MPD :=
  { periods := mpd.periods.map fun period =>
      { period with event_streams :=
          period.event_streams.filter fun es => !is_scte35_scheme (es.schemeIdUri.getD "") } }

/-- C4 counterexample: for a break of duration 10.5 (a value exact in
`f64`), the injected Event carries duration 10 — the `as u64` cast
truncates — while the claimed `round` gives 11; the `dur` query value is
likewise the truncated 10. -/
theorem C4_truncation_counterexample :
    inject_dash_callbacks ⟨[⟨some "p0", []⟩]⟩ [⟨0, some "p0", 21 / 2, 15⟩]
        "sess" "http://stitcher" =
      ⟨[⟨some "p0", [⟨some CALLBACK_SCHEME, some 1,
        [⟨some "ad-break-0", some 15, some 10,
          some "http://stitcher/stitch/sess/asset-list/0?dur=10"⟩]⟩]⟩]⟩ ∧
    round ((21 : ℚ) / 2) = 11 ∧ (10 : Nat) ≠ 11 := by
  have hdur : rustF64ToU64 (21 / 2) = 10 := by
    unfold rustF64ToU64
    rw [if_neg (by norm_num)]
    rw [show ⌊(21 : ℚ) / 2⌋ = 10 from by rw [Int.floor_eq_iff] <;> norm_num]
    decide
  have hpt : rustF64ToU64 15 = 15 := by
    unfold rustF64ToU64
    rw [if_neg (by norm_num)]
    rw [show ⌊(15 : ℚ)⌋ = 15 from by rw [Int.floor_eq_iff] <;> norm_num]
    decide
  refine ⟨?_, ?_, by decide⟩
  · have hstep : inject_dash_callbacks ⟨[⟨some "p0", []⟩]⟩ [⟨0, some "p0", 21 / 2, 15⟩]
        "sess" "http://stitcher" =
        ⟨[⟨some "p0", [callback_stream "sess" "http://stitcher"
          [(0, ⟨0, some "p0", 21 / 2, 15⟩)]]⟩]⟩ := rfl
    have hev : callback_stream "sess" "http://stitcher" [(0, ⟨0, some "p0", 21 / 2, 15⟩)] =
        ⟨some CALLBACK_SCHEME, some 1, [⟨some "ad-break-0", some (rustF64ToU64 15),
          some (rustF64ToU64 (21 / 2)),
          some ("http://stitcher/stitch/sess/asset-list/0?dur=" ++
            toString (rustF64ToU64 (21 / 2)))⟩]⟩ := rfl
    rw [hstep, hev, hdur, hpt]
    decide
  · rw [round_eq]
    rw [show (21 : ℚ) / 2 + 1 / 2 = ((11 : ℤ) : ℚ) from by norm_num]
    rw [Int.floor_intCast]

/-- C4 (amended): for every MPD and non-empty break list, SGAI rewriting
followed by the SCTE-35 strip inserts no Periods; a Period with no
breaks just loses its SCTE-35 streams, while a Period hosting breaks
additionally gains exactly one callback EventStream with scheme
`urn:mpeg:dash:event:callback:2015` and timescale 1, holding one Event
per break with id `ad-break-\x7bb\x7d`, presentationTime and duration
equal to the `as u64` truncation (not the claimed rounding) of the
break's values, and the asset-list URL with the truncated duration as
content; after the strip no EventStream with an SCTE-35 scheme remains
anywhere, and the callback scheme is not SCTE-35 (so the injected
streams survive). -/
theorem C4_sgai_rewrite_amended (mpd : MPD) (ad_breaks : List DashAdBreak)
    (sid base : String) (hne : ad_breaks ≠ []) :
    (inject_dash_callbacks mpd ad_breaks sid base).periods.length = mpd.periods.length ∧
    (strip_scte35_event_streams (inject_dash_callbacks mpd ad_breaks sid base)).periods.length =
      mpd.periods.length ∧
    (∀ p : Nat,
      (breaks_for_period ad_breaks p = [] →
        (strip_scte35_event_streams (inject_dash_callbacks mpd ad_breaks sid base)).periods[p]? =
          mpd.periods[p]?.map (fun period =>
            { period with event_streams := (period.event_streams.filter
                (fun es => !is_scte35_scheme (es.schemeIdUri.getD ""))) })) ∧
      (breaks_for_period ad_breaks p ≠ [] →
        (strip_scte35_event_streams (inject_dash_callbacks mpd ad_breaks sid base)).periods[p]? =
          mpd.periods[p]?.map (fun period =>
            { period with event_streams := (period.event_streams.filter
                (fun es => !is_scte35_scheme (es.schemeIdUri.getD "")) ++
              [callback_stream sid base (breaks_for_period ad_breaks p)]) }))) ∧
    (∀ p : Nat,
      (callback_stream sid base (breaks_for_period ad_breaks p)).schemeIdUri =
        some CALLBACK_SCHEME ∧
      (callback_stream sid base (breaks_for_period ad_breaks p)).timescale = some 1 ∧
      (callback_stream sid base (breaks_for_period ad_breaks p)).event.length =
        (breaks_for_period ad_breaks p).length ∧
      (callback_stream sid base (breaks_for_period ad_breaks p)).event =
        (breaks_for_period ad_breaks p).map (fun bi =>
          { id := some ("ad-break-" ++ toString bi.1),
            presentationTime := some (rustF64ToU64 bi.2.presentation_time),
            duration := some (rustF64ToU64 bi.2.duration),
            content := some (base ++ "/stitch/" ++ sid ++ "/asset-list/" ++ toString bi.1 ++
              "?dur=" ++ toString (rustF64ToU64 bi.2.duration)) })) ∧
    (∀ m : MPD, ∀ period ∈ (strip_scte35_event_streams m).periods,
      ∀ es ∈ period.event_streams, is_scte35_scheme (es.schemeIdUri.getD "") = false) ∧
    is_scte35_scheme CALLBACK_SCHEME = false := by
  have hie : ad_breaks.isEmpty = false := by
    cases ad_breaks with
    | nil => exact absurd rfl hne
    | cons a l => rfl
  have hinj : inject_dash_callbacks mpd ad_breaks sid base =
      ⟨mpd.periods.mapIdx fun p period =>
        if (breaks_for_period ad_breaks p).isEmpty then period
        else { period with event_streams :=
          period.event_streams ++ [callback_stream sid base (breaks_for_period ad_breaks p)] }⟩ := by
    simp [inject_dash_callbacks, hie]
  have hcb : ∀ p : Nat,
      (!is_scte35_scheme ((callback_stream sid base
        (breaks_for_period ad_breaks p)).schemeIdUri.getD "")) = true := by
    intro p
    show (!is_scte35_scheme CALLBACK_SCHEME) = true
    decide
  refine ⟨?_, ?_, ?_, ?_, ?_, by decide⟩
  · rw [hinj]
    simp
  · rw [hinj]
    simp [strip_scte35_event_streams]
  · intro p
    constructor
    · intro hbe
      have hbi : (breaks_for_period ad_breaks p).isEmpty = true := by simp [hbe]
      rw [hinj]
      simp only [strip_scte35_event_streams, List.getElem?_map, List.getElem?_mapIdx, hbi,
        if_true, Option.map_map]
      rfl
    · intro hbne
      have hbi : (breaks_for_period ad_breaks p).isEmpty = false := by
        cases hb : breaks_for_period ad_breaks p with
        | nil => exact absurd hb hbne
        | cons a l => rfl
      rw [hinj]
      simp only [strip_scte35_event_streams, List.getElem?_map, List.getElem?_mapIdx, hbi,
        Bool.false_eq_true, if_false, Option.map_map]
      cases hmp : mpd.periods[p]? with
      | none => rfl
      | some period =>
        simp only [Option.map_some', Function.comp, List.filter_append, List.filter_cons,
          hcb p, List.filter_nil, if_true]
  · intro p
    refine ⟨rfl, rfl, by simp [callback_stream], rfl⟩
  · intro m period hp es hes
    simp only [strip_scte35_event_streams, List.mem_map] at hp
    obtain ⟨period0, _, rfl⟩ := hp
    simp only [List.mem_filter] at hes
    simpa using hes.2

/-- Concrete instantiation of the amended SGAI theorem: one break in the
first of two Periods leaves the Period count at two. -/
theorem C4_sgai_rewrite_amended_witness :
    ([(⟨0, some "p0", 10, 15⟩ : DashAdBreak)] ≠ []) ∧
    (inject_dash_callbacks ⟨[⟨some "p0", []⟩, ⟨some "p1", []⟩]⟩
      [⟨0, some "p0", 10, 15⟩] "sess" "http://s").periods.length = 2 := by
  refine ⟨by simp, ?_⟩
  have h := C4_sgai_rewrite_amended ⟨[⟨some "p0", []⟩, ⟨some "p1", []⟩]⟩
    [⟨0, some "p0", 10, 15⟩] "sess" "http://s" (by simp)
  rw [h.1]
  rfl

/-! ### LL-HLS preserver (src/hls/ll_hls.rs)

Playlists are embedded as lists of lines, each line a character list
(`content.lines()` in the source).  None of the scanned tag patterns
contains a newline, so the source's whole-content substring checks
coincide with per-line checks. -/

/-- A playlist line. -/
abbrev LLine : Type := List Char

/-- Tag pattern `#EXT-X-SERVER-CONTROL:`. -/
def scTag : LLine := "#EXT-X-SERVER-CONTROL:".toList

/-- Tag pattern `#EXT-X-PART-INF:`. -/
def piTag : LLine := "#EXT-X-PART-INF:".toList

/-- Tag pattern `#EXT-X-SKIP:`. -/
def skTag : LLine := "#EXT-X-SKIP:".toList

/-- Tag pattern `#EXT-X-PART:`. -/
def partTag : LLine := "#EXT-X-PART:".toList

/-- Tag pattern `#EXT-X-PRELOAD-HINT:`. -/
def phTag : LLine := "#EXT-X-PRELOAD-HINT:".toList

/-- Tag pattern `#EXT-X-RENDITION-REPORT:`. -/
def rrTag : LLine := "#EXT-X-RENDITION-REPORT:".toList

/-- Tag pattern `#EXT-X-TARGETDURATION:`. -/
def tdTag : LLine := "#EXT-X-TARGETDURATION:".toList

/-- Tag pattern `#EXT-X-VERSION:`. -/
def verTag : LLine := "#EXT-X-VERSION:".toList

/-- Tag pattern `#EXTM3U`. -/
def m3uTag : LLine := "#EXTM3U".toList

/-- Rust `str::contains(pat)` on one line: the pattern occurs as a
contiguous run. -/
def containsTag (pat : LLine) : LLine → Bool
  | [] => pat.isEmpty
  | c :: rest => pat.isPrefixOf (c :: rest) || containsTag pat rest

/-- Embeds `is_ll_hls` (src/hls/ll_hls.rs:37): the raw content contains
`#EXT-X-SERVER-CONTROL:`, `#EXT-X-PART-INF:`, or `#EXT-X-PART:`.
(`#EXT-X-SKIP:`, `#EXT-X-PRELOAD-HINT:` and `#EXT-X-RENDITION-REPORT:`
are not gate indicators.) -/
def is_ll_hls (content : List LLine) : Bool :=
  content.any (fun l => containsTag scTag l || containsTag piTag l || containsTag partTag l)

/-- Captured LL-HLS playlist-level tags (src/hls/ll_hls.rs:21). -/
structure LlHlsPlaylistTags where
  server_control : Option LLine := none
  part_inf : Option LLine := none
  skip : Option LLine := none
  preload_hints : List LLine := []
  rendition_reports : List LLine := []
deriving DecidableEq

/-- One step of the extraction scan over a line (the if-else chain of
src/hls/ll_hls.rs:51-67): single-slot tags are overwritten, so the last
occurrence wins; hint and report lines are accumulated in order. -/
def extract_step (t : LlHlsPlaylistTags) (l : LLine) : LlHlsPlaylistTags :=
  if scTag.isPrefixOf l then { t with server_control := some l }
  else if piTag.isPrefixOf l then { t with part_inf := some l }
  else if skTag.isPrefixOf l then { t with skip := some l }
  else if phTag.isPrefixOf l then { t with preload_hints := t.preload_hints ++ [l] }
  else if rrTag.isPrefixOf l then { t with rendition_reports := t.rendition_reports ++ [l] }
  else t

/-- Embeds `extract_ll_hls_tags` (src/hls/ll_hls.rs:48). -/
def extract_ll_hls_tags (content : List LLine) : LlHlsPlaylistTags :=
  content.foldl extract_step {}

/-- The scan loop of `find_insertion_line` (src/hls/ll_hls.rs:142):
return the first TARGETDURATION index immediately; otherwise remember
the last VERSION and last EXTM3U indices and resolve the priority
VERSION, then EXTM3U, then 0 at the end. -/
def insertionScan : List LLine → Nat → Option Nat → Option Nat → Nat
  | [], _, v, e => (v.or e).getD 0
  | l :: rest, i, v, e =>
    if tdTag.isPrefixOf l then i
    else if verTag.isPrefixOf l then insertionScan rest (i + 1) (some i) e
    else if m3uTag.isPrefixOf l then insertionScan rest (i + 1) v (some i)
    else insertionScan rest (i + 1) v e

/-- Embeds `find_insertion_line` (src/hls/ll_hls.rs:142). -/
def find_insertion_line (content : List LLine) : Nat :=
  insertionScan content 0 none none

/-- The header tag lines in injection order: SERVER-CONTROL, PART-INF,
SKIP (src/hls/ll_hls.rs:103-114). -/
def header_lines (t : LlHlsPlaylistTags) : List LLine :=
  t.server_control.toList ++ t.part_inf.toList ++ t.skip.toList

/-- The body of the injection loop (src/hls/ll_hls.rs:98-116): emit each
line, and right after the line at the insertion index emit the header
tag lines.  The source compares a strictly increasing `enumerate` index
to a fixed insertion index, hit at most once; the countdown embeds that
exactly. -/
def injectHeader (hs : List LLine) : List LLine → Option Nat → List LLine
  | [], _ => []
  | l :: rest, some 0 => l :: (hs ++ injectHeader hs rest none)
  | l :: rest, some (n + 1) => l :: injectHeader hs rest (some n)
  | l :: rest, none => l :: injectHeader hs rest none

/-- Embeds `inject_ll_hls_tags` (src/hls/ll_hls.rs:83): unchanged when
there is nothing to inject; otherwise header tags go after the insertion
line and hint and report lines are appended at the end, in order. -/
def inject_ll_hls_tags (serialized : List LLine) (tags : LlHlsPlaylistTags) : List LLine :=
  let hasHeader := tags.server_control.isSome || tags.part_inf.isSome || tags.skip.isSome
  let hasTail := !tags.preload_hints.isEmpty || !tags.rendition_reports.isEmpty
  if !hasHeader && !hasTail then serialized
  else
    (if hasHeader then
      injectHeader (header_lines tags) serialized (some (find_insertion_line serialized))
    else serialized) ++ tags.preload_hints ++ tags.rendition_reports

/-- Modelled from the spec (section 4.9): the extract-then-inject
round-trip gated on the LL-HLS indicator check; `serialized` stands for
the lossy parse/serialize output between the two steps.  The handler
wiring these calls together is not in the snapshot. -/
def ll_hls_pipeline (raw serialized : List LLine) : List LLine :=
  if is_ll_hls raw then inject_ll_hls_tags serialized (extract_ll_hls_tags raw) else serialized

/-- Raw playlist whose only LL-HLS tag is `#EXT-X-SKIP:`. -/
def c6Raw : List LLine :=
  ["#EXTM3U".toList, "#EXT-X-TARGETDURATION:4".toList,
   "#EXT-X-SKIP:SKIPPED-SEGMENTS=3".toList, "#EXTINF:2.0,".toList, "seg10.ts".toList]

/-- What the lossy serializer emits for `c6Raw`: the SKIP line is gone. -/
def c6Serialized : List LLine :=
  ["#EXTM3U".toList, "#EXT-X-TARGETDURATION:4".toList,
   "#EXTINF:2.0,".toList, "seg10.ts".toList]

/-- C6 counterexample: a playlist whose only LL-HLS tag is
`#EXT-X-SKIP:` does not trip the gate (which checks only SERVER-CONTROL,
PART-INF and PART), so the pipeline returns the serialized output
untouched and the raw SKIP line is absent from it. -/
theorem C6_gate_counterexample :
    "#EXT-X-SKIP:SKIPPED-SEGMENTS=3".toList ∈ c6Raw ∧
    is_ll_hls c6Raw = false ∧
    ll_hls_pipeline c6Raw c6Serialized = c6Serialized ∧
    "#EXT-X-SKIP:SKIPPED-SEGMENTS=3".toList ∉ ll_hls_pipeline c6Raw c6Serialized := by
  refine ⟨by decide, by decide, by decide, by decide⟩

/-- Two lists that are not prefixes of one another are never both
prefixes of a third. -/
theorem isPrefixOf_excl {p q : LLine} (hpq : ¬ p <+: q) (hqp : ¬ q <+: p) (l : LLine) :
    ¬ (p.isPrefixOf l = true ∧ q.isPrefixOf l = true) := by
  rintro ⟨h1, h2⟩
  rw [List.isPrefixOf_iff_prefix] at h1 h2
  rcases Nat.le_total p.length q.length with hle | hle
  · exact hpq (List.prefix_of_prefix_length_le h1 h2 hle)
  · exact hqp (List.prefix_of_prefix_length_le h2 h1 hle)

/-- A line starting with one tag cannot start with an incomparable tag. -/
theorem prefix_false_of_tag {p q : LLine} (hpq : ¬ p <+: q) (hqp : ¬ q <+: p) (l : LLine)
    (hq : q.isPrefixOf l = true) : p.isPrefixOf l = false := by
  cases h : p.isPrefixOf l
  · rfl
  · exact absurd ⟨h, hq⟩ (isPrefixOf_excl hpq hqp l)

/-- Boolean negation as an equation. -/
theorem bool_eq_false {b : Bool} (h : ¬ b = true) : b = false := by
  cases b
  · rfl
  · exact absurd rfl h

/-- Last-match accumulator for a single-slot tag: the semantics of
repeatedly overwriting an optional capture. -/
def lastTagAux (p : LLine) (o : Option LLine) (ls : List LLine) : Option LLine :=
  ls.foldl (fun o l => if p.isPrefixOf l then some l else o) o

/-- Unfolding `lastTagAux` one line at a time. -/
theorem lastTagAux_cons (p : LLine) (o : Option LLine) (l : LLine) (ls : List LLine) :
    lastTagAux p o (l :: ls) = lastTagAux p (if p.isPrefixOf l then some l else o) ls := rfl

/-- The extraction fold captures, per field: the last SERVER-CONTROL,
PART-INF and SKIP lines, and all PRELOAD-HINT and RENDITION-REPORT lines
in order. -/
theorem extract_fold_spec (ls : List LLine) : ∀ acc : LlHlsPlaylistTags,
    (ls.foldl extract_step acc).server_control = lastTagAux scTag acc.server_control ls ∧
    (ls.foldl extract_step acc).part_inf = lastTagAux piTag acc.part_inf ls ∧
    (ls.foldl extract_step acc).skip = lastTagAux skTag acc.skip ls ∧
    (ls.foldl extract_step acc).preload_hints =
      acc.preload_hints ++ ls.filter (fun l => phTag.isPrefixOf l) ∧
    (ls.foldl extract_step acc).rendition_reports =
      acc.rendition_reports ++ ls.filter (fun l => rrTag.isPrefixOf l) := by
  induction ls with
  | nil => intro acc; simp [lastTagAux]
  | cons l ls ih =>
    intro acc
    rw [List.foldl_cons]
    by_cases h1 : scTag.isPrefixOf l = true
    · have h2 := @prefix_false_of_tag piTag scTag (by decide) (by decide) l h1
      have h3 := @prefix_false_of_tag skTag scTag (by decide) (by decide) l h1
      have h4 := @prefix_false_of_tag phTag scTag (by decide) (by decide) l h1
      have h5 := @prefix_false_of_tag rrTag scTag (by decide) (by decide) l h1
      have hstep : extract_step acc l = { acc with server_control := some l } := by
        simp [extract_step, h1]
      rw [hstep]
      obtain ⟨i1, i2, i3, i4, i5⟩ := ih { acc with server_control := some l }
      refine ⟨?_, ?_, ?_, ?_, ?_⟩
      · rw [i1, lastTagAux_cons, if_pos h1]
      · rw [i2, lastTagAux_cons, if_neg (by simp [h2])]
      · rw [i3, lastTagAux_cons, if_neg (by simp [h3])]
      · rw [i4, List.filter_cons]
        simp [h4]
      · rw [i5, List.filter_cons]
        simp [h5]
    · have h1f : scTag.isPrefixOf l = false := bool_eq_false h1
      by_cases h2 : piTag.isPrefixOf l = true
      · have h3 := @prefix_false_of_tag skTag piTag (by decide) (by decide) l h2
        have h4 := @prefix_false_of_tag phTag piTag (by decide) (by decide) l h2
        have h5 := @prefix_false_of_tag rrTag piTag (by decide) (by decide) l h2
        have hstep : extract_step acc l = { acc with part_inf := some l } := by
          simp [extract_step, h1f, h2]
        rw [hstep]
        obtain ⟨i1, i2, i3, i4, i5⟩ := ih { acc with part_inf := some l }
        refine ⟨?_, ?_, ?_, ?_, ?_⟩
        · rw [i1, lastTagAux_cons, if_neg (by simp [h1f])]
        · rw [i2, lastTagAux_cons, if_pos h2]
        · rw [i3, lastTagAux_cons, if_neg (by simp [h3])]
        · rw [i4, List.filter_cons]
          simp [h4]
        · rw [i5, List.filter_cons]
          simp [h5]
      · have h2f : piTag.isPrefixOf l = false := bool_eq_false h2
        by_cases h3 : skTag.isPrefixOf l = true
        · have h4 := @prefix_false_of_tag phTag skTag (by decide) (by decide) l h3
          have h5 := @prefix_false_of_tag rrTag skTag (by decide) (by decide) l h3
          have hstep : extract_step acc l = { acc with skip := some l } := by
            simp [extract_step, h1f, h2f, h3]
          rw [hstep]
          obtain ⟨i1, i2, i3, i4, i5⟩ := ih { acc with skip := some l }
          refine ⟨?_, ?_, ?_, ?_, ?_⟩
          · rw [i1, lastTagAux_cons, if_neg (by simp [h1f])]
          · rw [i2, lastTagAux_cons, if_neg (by simp [h2f])]
          · rw [i3, lastTagAux_cons, if_pos h3]
          · rw [i4, List.filter_cons]
            simp [h4]
          · rw [i5, List.filter_cons]
            simp [h5]
        · have h3f : skTag.isPrefixOf l = false := bool_eq_false h3
          by_cases h4 : phTag.isPrefixOf l = true
          · have h5 := @prefix_false_of_tag rrTag phTag (by decide) (by decide) l h4
            have hstep : extract_step acc l =
                { acc with preload_hints := acc.preload_hints ++ [l] } := by
              simp [extract_step, h1f, h2f, h3f, h4]
            rw [hstep]
            obtain ⟨i1, i2, i3, i4, i5⟩ := ih { acc with preload_hints := acc.preload_hints ++ [l] }
            refine ⟨?_, ?_, ?_, ?_, ?_⟩
            · rw [i1, lastTagAux_cons, if_neg (by simp [h1f])]
            · rw [i2, lastTagAux_cons, if_neg (by simp [h2f])]
            · rw [i3, lastTagAux_cons, if_neg (by simp [h3f])]
            · rw [i4, List.filter_cons]
              simp [h4]
            · rw [i5, List.filter_cons]
              simp [h5]
          · have h4f : phTag.isPrefixOf l = false := bool_eq_false h4
            by_cases h5 : rrTag.isPrefixOf l = true
            · have hstep : extract_step acc l =
                  { acc with rendition_reports := acc.rendition_reports ++ [l] } := by
                simp [extract_step, h1f, h2f, h3f, h4f, h5]
              rw [hstep]
              obtain ⟨i1, i2, i3, i4, i5⟩ :=
                ih { acc with rendition_reports := acc.rendition_reports ++ [l] }
              refine ⟨?_, ?_, ?_, ?_, ?_⟩
              · rw [i1, lastTagAux_cons, if_neg (by simp [h1f])]
              · rw [i2, lastTagAux_cons, if_neg (by simp [h2f])]
              · rw [i3, lastTagAux_cons, if_neg (by simp [h3f])]
              · rw [i4, List.filter_cons]
                simp [h4f]
              · rw [i5, List.filter_cons]
                simp [h5]
            · have h5f : rrTag.isPrefixOf l = false := bool_eq_false h5
              have hstep : extract_step acc l = acc := by
                simp [extract_step, h1f, h2f, h3f, h4f, h5f]
              rw [hstep]
              obtain ⟨i1, i2, i3, i4, i5⟩ := ih acc
              refine ⟨?_, ?_, ?_, ?_, ?_⟩
              · rw [i1, lastTagAux_cons, if_neg (by simp [h1f])]
              · rw [i2, lastTagAux_cons, if_neg (by simp [h2f])]
              · rw [i3, lastTagAux_cons, if_neg (by simp [h3f])]
              · rw [i4, List.filter_cons]
                simp [h4f]
              · rw [i5, List.filter_cons]
                simp [h5f]

/-- A captured single-slot tag either is a matching line of the scanned
list or was already in the accumulator. -/
theorem lastTagAux_some (p : LLine) (ls : List LLine) : ∀ (o : Option LLine) (l : LLine),
    lastTagAux p o ls = some l → (l ∈ ls ∧ p.isPrefixOf l = true) ∨ o = some l := by
  induction ls with
  | nil => intro o l h; exact Or.inr h
  | cons x ls ih =>
    intro o l h
    rw [lastTagAux_cons] at h
    rcases ih _ l h with ⟨hmem, hp⟩ | heq
    · exact Or.inl ⟨List.mem_cons_of_mem x hmem, hp⟩
    · by_cases hx : p.isPrefixOf x = true
      · rw [if_pos hx] at heq
        obtain rfl := Option.some.inj heq
        exact Or.inl ⟨List.mem_cons_self x ls, hx⟩
      · rw [if_neg hx] at heq
        exact Or.inr heq

/-- Once a single-slot tag has been captured it stays captured. -/
theorem lastTagAux_stays (p : LLine) (ls : List LLine) : ∀ x : LLine,
    (lastTagAux p (some x) ls).isSome = true := by
  induction ls with
  | nil => intro x; rfl
  | cons y ls ih =>
    intro x
    rw [lastTagAux_cons]
    by_cases hy : p.isPrefixOf y = true
    · rw [if_pos hy]
      exact ih y
    · rw [if_neg hy]
      exact ih x

/-- A matching line in the scanned list guarantees a capture. -/
theorem lastTagAux_isSome (p : LLine) (ls : List LLine) : ∀ (o : Option LLine),
    (∃ l ∈ ls, p.isPrefixOf l = true) → (lastTagAux p o ls).isSome = true := by
  induction ls with
  | nil =>
    intro o h
    simp at h
  | cons x ls ih =>
    intro o h
    rw [lastTagAux_cons]
    by_cases hx : p.isPrefixOf x = true
    · rw [if_pos hx]
      exact lastTagAux_stays p ls x
    · rw [if_neg hx]
      rcases h with ⟨l, hl, hp⟩
      rcases List.mem_cons.mp hl with rfl | hl2
      · exact absurd hp hx
      · exact ih o ⟨l, hl2, hp⟩

/-- The insertion scan yields an index below `i` plus the remaining line
count, or falls back to zero. -/
theorem insertionScan_bound : ∀ (ls : List LLine) (i : Nat) (v e : Option Nat),
    (∀ j, v = some j → j < i) → (∀ j, e = some j → j < i) →
    insertionScan ls i v e < i + ls.length ∨ insertionScan ls i v e = 0 := by
  intro ls
  induction ls with
  | nil =>
    intro i v e hv he
    cases v with
    | some j =>
      left
      have := hv j rfl
      simp only [insertionScan, Option.or_some, Option.getD_some]
      omega
    | none =>
      cases e with
      | some j =>
        left
        have := he j rfl
        simp only [insertionScan, Option.none_or, Option.getD_some]
        omega
      | none => right; rfl
  | cons l rest ih =>
    intro i v e hv he
    unfold insertionScan
    by_cases htd : tdTag.isPrefixOf l = true
    · rw [if_pos htd]
      left
      simp only [List.length_cons]
      omega
    · rw [if_neg htd]
      by_cases hver : verTag.isPrefixOf l = true
      · rw [if_pos hver]
        rcases ih (i + 1) (some i) e (fun j hj => by cases hj; omega)
            (fun j hj => by have := he j hj; omega) with h | h
        · left
          simp only [List.length_cons]
          omega
        · right
          exact h
      · rw [if_neg hver]
        by_cases hm3u : m3uTag.isPrefixOf l = true
        · rw [if_pos hm3u]
          rcases ih (i + 1) v (some i) (fun j hj => by have := hv j hj; omega)
              (fun j hj => by cases hj; omega) with h | h
          · left
            simp only [List.length_cons]
            omega
          · right
            exact h
        · rw [if_neg hm3u]
          rcases ih (i + 1) v e (fun j hj => by have := hv j hj; omega)
              (fun j hj => by have := he j hj; omega) with h | h
          · left
            simp only [List.length_cons]
            omega
          · right
            exact h

/-- On a non-empty serialized playlist the insertion index is a valid
line index. -/
theorem find_insertion_line_lt (serialized : List LLine) (hser : serialized ≠ []) :
    find_insertion_line serialized < serialized.length := by
  have h0 : 0 < serialized.length := List.length_pos.mpr hser
  rcases insertionScan_bound serialized 0 none none (by intro j hj; cases hj)
      (by intro j hj; cases hj) with h | h
  · simpa using h
  · rw [find_insertion_line, h]
    exact h0

/-- With no insertion index left, the loop emits the lines unchanged. -/
theorem injectHeader_none (hs : List LLine) : ∀ ls : List LLine,
    injectHeader hs ls none = ls := by
  intro ls
  induction ls with
  | nil => rfl
  | cons l rest ih => simp [injectHeader, ih]

/-- With a valid insertion index the loop splices the header lines right
after that line. -/
theorem injectHeader_some (hs : List LLine) : ∀ (ls : List LLine) (n : Nat), n < ls.length →
    injectHeader hs ls (some n) = ls.take (n + 1) ++ hs ++ ls.drop (n + 1) := by
  intro ls
  induction ls with
  | nil =>
    intro n h
    simp at h
  | cons l rest ih =>
    intro n h
    cases n with
    | zero => simp [injectHeader, injectHeader_none]
    | succ n =>
      have h2 : n < rest.length := by simpa using h
      simp [injectHeader, ih n h2]

/-- Any captured header line survives into the gated pipeline output. -/
theorem mem_pipeline_of_mem_header (raw serialized : List LLine)
    (hgate : is_ll_hls raw = true) (hser : serialized ≠ []) (l : LLine)
    (hl : l ∈ header_lines (extract_ll_hls_tags raw))
    (hhead : ((extract_ll_hls_tags raw).server_control.isSome ||
      ((extract_ll_hls_tags raw).part_inf.isSome ||
        (extract_ll_hls_tags raw).skip.isSome)) = true) :
    l ∈ ll_hls_pipeline raw serialized := by
  rw [ll_hls_pipeline, if_pos hgate]
  simp only [inject_ll_hls_tags, Bool.or_assoc, hhead, Bool.not_true, Bool.false_and,
    Bool.false_eq_true, if_false, if_true]
  rw [injectHeader_some _ _ _ (find_insertion_line_lt serialized hser)]
  simp [hl]

/-- C6 (amended): for every raw playlist that trips the gate (it contains
one of the indicator tags SERVER-CONTROL, PART-INF or PART) and a
non-empty serialized intermediate, the pipeline output contains
byte-identically the captured SERVER-CONTROL, PART-INF and SKIP lines —
each the last such line of the raw input, captured whenever one exists —
and every PRELOAD-HINT and RENDITION-REPORT line of the raw input, the
hint lines followed by the report lines appended at the very end in
their original order.  (A playlist carrying only non-indicator LL-HLS
tags never reaches this path, as the counterexample records.) -/
theorem C6_ll_hls_roundtrip_amended (raw serialized : List LLine)
    (hgate : is_ll_hls raw = true) (hser : serialized ≠ []) :
    (∀ l, (extract_ll_hls_tags raw).server_control = some l →
      l ∈ raw ∧ scTag.isPrefixOf l = true ∧ l ∈ ll_hls_pipeline raw serialized) ∧
    (∀ l, (extract_ll_hls_tags raw).part_inf = some l →
      l ∈ raw ∧ piTag.isPrefixOf l = true ∧ l ∈ ll_hls_pipeline raw serialized) ∧
    (∀ l, (extract_ll_hls_tags raw).skip = some l →
      l ∈ raw ∧ skTag.isPrefixOf l = true ∧ l ∈ ll_hls_pipeline raw serialized) ∧
    ((∃ l ∈ raw, scTag.isPrefixOf l = true) →
      ((extract_ll_hls_tags raw).server_control).isSome = true) ∧
    ((∃ l ∈ raw, piTag.isPrefixOf l = true) →
      ((extract_ll_hls_tags raw).part_inf).isSome = true) ∧
    ((∃ l ∈ raw, skTag.isPrefixOf l = true) →
      ((extract_ll_hls_tags raw).skip).isSome = true) ∧
    (extract_ll_hls_tags raw).preload_hints = raw.filter (fun l => phTag.isPrefixOf l) ∧
    (extract_ll_hls_tags raw).rendition_reports = raw.filter (fun l => rrTag.isPrefixOf l) ∧
    (∃ core, ll_hls_pipeline raw serialized =
      core ++ raw.filter (fun l => phTag.isPrefixOf l) ++
        raw.filter (fun l => rrTag.isPrefixOf l)) := by
  obtain ⟨e1, e2, e3, e4, e5⟩ := extract_fold_spec raw {}
  have hext1 : (extract_ll_hls_tags raw).server_control = lastTagAux scTag none raw := e1
  have hext2 : (extract_ll_hls_tags raw).part_inf = lastTagAux piTag none raw := e2
  have hext3 : (extract_ll_hls_tags raw).skip = lastTagAux skTag none raw := e3
  have hext4 : (extract_ll_hls_tags raw).preload_hints =
      raw.filter (fun l => phTag.isPrefixOf l) := by
    rw [extract_ll_hls_tags, e4]
    rfl
  have hext5 : (extract_ll_hls_tags raw).rendition_reports =
      raw.filter (fun l => rrTag.isPrefixOf l) := by
    rw [extract_ll_hls_tags, e5]
    rfl
  refine ⟨?_, ?_, ?_, ?_, ?_, ?_, hext4, hext5, ?_⟩
  · intro l hl
    rcases lastTagAux_some scTag raw none l (hext1 ▸ hl) with ⟨hmem, hp⟩ | habs
    · refine ⟨hmem, hp, ?_⟩
      apply mem_pipeline_of_mem_header raw serialized hgate hser l
      · simp [header_lines, hl]
      · simp [hl]
    · cases habs
  · intro l hl
    rcases lastTagAux_some piTag raw none l (hext2 ▸ hl) with ⟨hmem, hp⟩ | habs
    · refine ⟨hmem, hp, ?_⟩
      apply mem_pipeline_of_mem_header raw serialized hgate hser l
      · simp [header_lines, hl]
      · simp [hl]
    · cases habs
  · intro l hl
    rcases lastTagAux_some skTag raw none l (hext3 ▸ hl) with ⟨hmem, hp⟩ | habs
    · refine ⟨hmem, hp, ?_⟩
      apply mem_pipeline_of_mem_header raw serialized hgate hser l
      · simp [header_lines, hl]
      · simp [hl]
    · cases habs
  · intro h
    rw [hext1]
    exact lastTagAux_isSome scTag raw none h
  · intro h
    rw [hext2]
    exact lastTagAux_isSome piTag raw none h
  · intro h
    rw [hext3]
    exact lastTagAux_isSome skTag raw none h
  · rw [ll_hls_pipeline, if_pos hgate]
    simp only [inject_ll_hls_tags]
    by_cases hcase : (!((extract_ll_hls_tags raw).server_control.isSome ||
        (extract_ll_hls_tags raw).part_inf.isSome ||
        (extract_ll_hls_tags raw).skip.isSome) &&
      !(!(extract_ll_hls_tags raw).preload_hints.isEmpty ||
        !(extract_ll_hls_tags raw).rendition_reports.isEmpty)) = true
    · rw [if_pos hcase]
      have hempty : (extract_ll_hls_tags raw).preload_hints = [] ∧
          (extract_ll_hls_tags raw).rendition_reports = [] := by
        simp only [Bool.and_eq_true, Bool.not_eq_true'] at hcase
        obtain ⟨-, htail⟩ := hcase
        simp only [Bool.or_eq_false_iff, Bool.not_eq_false'] at htail
        exact ⟨List.isEmpty_iff.mp htail.1, List.isEmpty_iff.mp htail.2⟩
      refine ⟨serialized, ?_⟩
      rw [← hext4, ← hext5, hempty.1, hempty.2]
      simp
    · rw [if_neg hcase]
      exact ⟨_, by rw [hext4, hext5]⟩

/-- Raw playlist for the amended-round-trip witness: SERVER-CONTROL,
PART-INF, a hint and a report. -/
def c6wRaw : List LLine :=
  ["#EXTM3U".toList, "#EXT-X-TARGETDURATION:4".toList,
   "#EXT-X-SERVER-CONTROL:CAN-BLOCK-RELOAD=YES".toList,
   "#EXT-X-PART-INF:PART-TARGET=0.33334".toList,
   "#EXT-X-PRELOAD-HINT:TYPE=PART,URI=s81.mp4".toList,
   "#EXT-X-RENDITION-REPORT:URI=720p.m3u8".toList]

/-- Serialized intermediate for the amended-round-trip witness. -/
def c6wSerialized : List LLine :=
  ["#EXTM3U".toList, "#EXT-X-TARGETDURATION:4".toList, "#EXTINF:1.0,".toList,
   "seg80.mp4".toList]

/-- Concrete instantiation of the amended LL-HLS round-trip theorem. -/
theorem C6_ll_hls_roundtrip_amended_witness :
    (extract_ll_hls_tags c6wRaw).preload_hints =
      c6wRaw.filter (fun l => phTag.isPrefixOf l) ∧
    (∃ core, ll_hls_pipeline c6wRaw c6wSerialized =
      core ++ c6wRaw.filter (fun l => phTag.isPrefixOf l) ++
        c6wRaw.filter (fun l => rrTag.isPrefixOf l)) := by
  have h := C6_ll_hls_roundtrip_amended c6wRaw c6wSerialized (by decide) (by decide)
  exact ⟨h.2.2.2.2.2.2.1, h.2.2.2.2.2.2.2.2⟩

/-! ### LL-HLS URI rewriting (src/hls/ll_hls.rs:175-285)

Byte positions in the Rust code become character positions here; all
slicing is at positions the `URI="` search returns, so the embedding
mirrors the source's `find`, slicing and concatenation exactly. -/

/-- Rust `str::find(pat)` from offset `i`: the first position at which
the pattern is a prefix of the remaining text. -/
def findSubFrom (pat : LLine) : LLine → Nat → Option Nat
  | [], i => if pat.isEmpty then some i else none
  | c :: rest, i => if pat.isPrefixOf (c :: rest) then some i else findSubFrom pat rest (i + 1)

/-- Rust `str::find(pat)`. -/
def findSub (pat l : LLine) : Option Nat :=
  findSubFrom pat l 0

/-- Rust `str::find('"')` on the remainder after the marker. -/
def idxOfQuote : LLine → Option Nat
  | [] => none
  | c :: rest => if c = '\"' then some 0 else (idxOfQuote rest).map (· + 1)

/-- The `URI="` attribute marker (src/hls/ll_hls.rs:216). -/
def uriMarker : LLine := "URI=\"".toList

/-- Embeds `extract_quoted_uri` (src/hls/ll_hls.rs:215): find `URI="`,
then the closing quote; return the value between the quotes, the
position of the opening quote, and the position one past the closing
quote. -/
def extract_quoted_uri (line : LLine) : Option (LLine × Nat × Nat) :=
  match findSub uriMarker line with
  | none => none
  | some marker_pos =>
    let value_start := marker_pos + 5
    match idxOfQuote (line.drop value_start) with
    | none => none
    | some closing =>
      some ((line.drop value_start).take closing, value_start - 1, value_start + closing + 1)

/-- Rust `str::rsplit_once('/')`: split at the last slash, when any. -/
def rsplitOnceSlash : LLine → Option (LLine × LLine)
  | [] => none
  | c :: rest =>
    match rsplitOnceSlash rest with
    | some (b, a) => some (c :: b, a)
    | none => if c = '/' then some ([], rest) else none

/-- Embeds `rewrite_segment_uri` (src/hls/ll_hls.rs:232): replace the
quoted URI of a PART or PRELOAD-HINT line with the segment-proxy URI,
splitting an absolute URI into origin and name at its last slash and
resolving a relative one against `origin_base`. -/
def rewrite_segment_uri (line session_id base_url origin_base : LLine) : LLine :=
  match extract_quoted_uri line with
  | none => line
  | some (uri_value, quote_start, quote_end) =>
    let pair :=
      if "http://".toList.isPrefixOf uri_value || "https://".toList.isPrefixOf uri_value then
        match rsplitOnceSlash uri_value with
        | some (b, n) => (n, b)
        | none => (uri_value, origin_base)
      else (uri_value, origin_base)
    let new_uri := '\"' :: (base_url ++ "/stitch/".toList ++ session_id ++ "/segment/".toList ++
      pair.1 ++ "?origin=".toList ++ pair.2) ++ ['\"']
    line.take quote_start ++ new_uri ++ line.drop quote_end

/-- Embeds `rewrite_playlist_uri` (src/hls/ll_hls.rs:263): replace the
quoted URI of a RENDITION-REPORT line with the playlist-proxy URI. -/
def rewrite_playlist_uri (line session_id base_url origin_base : LLine) : LLine :=
  match extract_quoted_uri line with
  | none => line
  | some (uri_value, quote_start, quote_end) =>
    let absolute_url :=
      if "http://".toList.isPrefixOf uri_value || "https://".toList.isPrefixOf uri_value then
        uri_value
      else origin_base ++ '/' :: uri_value
    let new_uri := '\"' :: (base_url ++ "/stitch/".toList ++ session_id ++
      "/playlist.m3u8?origin=".toList ++ absolute_url) ++ ['\"']
    line.take quote_start ++ new_uri ++ line.drop quote_end

/-- Embeds `rewrite_ll_hls_uris` (src/hls/ll_hls.rs:175): PART and
PRELOAD-HINT lines go through the segment rewrite, RENDITION-REPORT
lines through the playlist rewrite, and every other line passes through
unchanged. -/
def rewrite_ll_hls_uris (serialized : List LLine)
    (session_id base_url origin_base : LLine) : List LLine :=
  serialized.map fun line =>
    if partTag.isPrefixOf line || phTag.isPrefixOf line then
      rewrite_segment_uri line session_id base_url origin_base
    else if rrTag.isPrefixOf line then
      rewrite_playlist_uri line session_id base_url origin_base
    else line

/-- A successful pattern search yields a position at which the pattern
is a prefix of the rest of the text. -/
theorem findSubFrom_prefix (pat : LLine) : ∀ (l : LLine) (i m : Nat),
    findSubFrom pat l i = some m → i ≤ m ∧ pat.isPrefixOf (l.drop (m - i)) = true := by
  intro l
  induction l with
  | nil =>
    intro i m h
    unfold findSubFrom at h
    by_cases hp : pat.isEmpty = true
    · rw [if_pos hp] at h
      obtain rfl := Option.some.inj h
      refine ⟨le_refl _, ?_⟩
      rw [List.isEmpty_iff.mp hp, List.isPrefixOf_iff_prefix]
      exact List.nil_prefix
    · rw [if_neg hp] at h
      cases h
  | cons c rest ih =>
    intro i m h
    unfold findSubFrom at h
    by_cases hp : pat.isPrefixOf (c :: rest) = true
    · rw [if_pos hp] at h
      obtain rfl := Option.some.inj h
      simpa using hp
    · rw [if_neg hp] at h
      obtain ⟨h1, h2⟩ := ih (i + 1) m h
      refine ⟨by omega, ?_⟩
      have hm : m - i = (m - (i + 1)) + 1 := by omega
      rw [hm]
      simpa using h2

/-- A successful quote search yields a valid position holding a quote. -/
theorem idxOfQuote_spec : ∀ (l : LLine) (c : Nat), idxOfQuote l = some c →
    c < l.length ∧ l.drop c = '\"' :: l.drop (c + 1) := by
  intro l
  induction l with
  | nil =>
    intro c h
    cases h
  | cons x rest ih =>
    intro c h
    unfold idxOfQuote at h
    by_cases hx : x = '\"'
    · rw [if_pos hx] at h
      obtain rfl := Option.some.inj h
      subst hx
      exact ⟨by simp, rfl⟩
    · rw [if_neg hx] at h
      cases hq : idxOfQuote rest with
      | none =>
        rw [hq] at h
        cases h
      | some c2 =>
        rw [hq] at h
        simp only [Option.map_some'] at h
        obtain rfl := Option.some.inj h
        obtain ⟨h1, h2⟩ := ih c2 hq
        refine ⟨by simpa using h1, ?_⟩
        simpa using h2

/-- A successful `extract_quoted_uri` cuts the line exactly at the two
quotes: the reported span is inside the line and consists of the opening
quote, the value, and the closing quote; everything before `quote_start`
and from `quote_end` on is untouched original text. -/
theorem extract_quoted_uri_spec (line v : LLine) (qs qe : Nat)
    (h : extract_quoted_uri line = some (v, qs, qe)) :
    qe ≤ line.length ∧ line = line.take qs ++ '\"' :: v ++ '\"' :: line.drop qe := by
  unfold extract_quoted_uri at h
  cases hf : findSub uriMarker line with
  | none =>
    rw [hf] at h
    cases h
  | some mp =>
    rw [hf] at h
    cases hq : idxOfQuote (line.drop (mp + 5)) with
    | none =>
      simp only [hq] at h
      cases h
    | some c =>
      simp only [hq, Option.some.injEq, Prod.mk.injEq] at h
      obtain ⟨hv, hqs, hqe⟩ := h
      have hqs4 : qs = mp + 4 := by omega
      subst hv
      subst hqs4
      rw [findSub] at hf
      obtain ⟨-, hp⟩ := findSubFrom_prefix uriMarker line 0 mp hf
      rw [Nat.sub_zero, List.isPrefixOf_iff_prefix] at hp
      obtain ⟨t, ht⟩ := hp
      have ht5 : line.drop (mp + 5) = t := by
        rw [← List.drop_drop 5 mp line, ← ht]
        exact List.drop_left' (by decide)
      have hlen : 5 + t.length = line.length - mp := by
        have := congrArg List.length ht
        simpa [List.length_drop] using this
      have hmple : mp + 5 ≤ line.length := by omega
      obtain ⟨hc, hdq⟩ := idxOfQuote_spec (line.drop (mp + 5)) c hq
      have hlc : c < line.length - (mp + 5) := by
        simpa [List.length_drop] using hc
      constructor
      · omega
      · have hline : line = (line.take mp ++ ['U', 'R', 'I', '=']) ++
            '\"' :: line.drop (mp + 5) := by
          conv_lhs => rw [← List.take_append_drop mp line, ← ht]
          rw [ht5]
          simp [uriMarker]
        have htake : line.take (mp + 4) = line.take mp ++ ['U', 'R', 'I', '='] := by
          conv_lhs => rw [hline]
          refine List.take_left' ?_
          have hle2 : mp ≤ line.length := by omega
          simp [List.length_take, Nat.min_eq_left hle2]
        have hdrop : line.drop qe = (line.drop (mp + 5)).drop (c + 1) := by
          have hdd := List.drop_drop (c + 1) (mp + 5) line
          rw [show mp + 5 + (c + 1) = qe from by omega] at hdd
          exact hdd.symm
        have hX : line.drop (mp + 5) =
            (line.drop (mp + 5)).take c ++ '\"' :: (line.drop (mp + 5)).drop (c + 1) := by
          conv_lhs => rw [← List.take_append_drop c (line.drop (mp + 5))]
          rw [hdq]
        rw [htake, hdrop]
        conv_lhs => rw [hline, hX]
        simp

/-- C10: frame property of the LL-HLS URI rewrite — output and input
correspond line by line; a line that is not a PART, PRELOAD-HINT or
RENDITION-REPORT tag, or whose tag carries no `URI="..."` attribute,
passes through byte-identically; in a rewritten line the reported span
is exactly the quoted URI value including its quotes, and the output is
the original bytes before the opening quote, some replacement, and the
original bytes from one past the closing quote on. -/
theorem C10_rewrite_ll_hls_uris_frame (serialized : List LLine)
    (sid base ob : LLine) :
    List.Forall₂ (fun line out =>
      ((partTag.isPrefixOf line || phTag.isPrefixOf line || rrTag.isPrefixOf line) = false →
        out = line) ∧
      (extract_quoted_uri line = none → out = line) ∧
      (∀ v qs qe, extract_quoted_uri line = some (v, qs, qe) →
        qe ≤ line.length ∧
        line = line.take qs ++ '\"' :: v ++ '\"' :: line.drop qe ∧
        ∃ mid, out = line.take qs ++ mid ++ line.drop qe))
      serialized (rewrite_ll_hls_uris serialized sid base ob) := by
  rw [rewrite_ll_hls_uris, List.forall₂_map_right_iff, List.forall₂_same]
  intro line hline
  refine ⟨?_, ?_, ?_⟩
  · intro hno
    simp only [Bool.or_eq_false_iff] at hno
    obtain ⟨⟨hp1, hp2⟩, hp3⟩ := hno
    simp [hp1, hp2, hp3]
  · intro hnone
    by_cases h1 : (partTag.isPrefixOf line || phTag.isPrefixOf line) = true
    · simp only [h1, if_true]
      rw [rewrite_segment_uri, hnone]
    · simp only [h1]
      by_cases h2 : rrTag.isPrefixOf line = true
      · simp only [h2, if_true, if_false, Bool.false_eq_true]
        rw [rewrite_playlist_uri, hnone]
      · simp [bool_eq_false h1, bool_eq_false h2]
  · intro v qs qe hsome
    obtain ⟨hle, hdec⟩ := extract_quoted_uri_spec line v qs qe hsome
    refine ⟨hle, hdec, ?_⟩
    by_cases h1 : (partTag.isPrefixOf line || phTag.isPrefixOf line) = true
    · simp only [h1, if_true]
      rw [rewrite_segment_uri, hsome]
      exact ⟨_, rfl⟩
    · simp only [h1]
      by_cases h2 : rrTag.isPrefixOf line = true
      · simp only [h2, if_true, if_false, Bool.false_eq_true]
        rw [rewrite_playlist_uri, hsome]
        exact ⟨_, rfl⟩
      · simp only [bool_eq_false h1, bool_eq_false h2, if_false, Bool.false_eq_true]
        refine ⟨'\"' :: v ++ ['\"'], ?_⟩
        conv_lhs => rw [hdec]
        simp

end Ritcher
